import Mathlib

/-!
Verification development for the `makeCalendar` repository (`src/app.py`).

The file shallowly embeds the two core components of the program:

* `parse_pdf`'s per-month table processing (`parseRegionTable`, `parse_pdf`):
  given the 2-D cell grid that `pdfplumber` returns for one month region,
  the code locates the data columns and emits raw shift records.
  External pdfplumber calls (crop, `extract_tables`) are modelled as an
  input per region: either an exception, or a (possibly empty) list of grids.
* `sync`'s reconciliation loop (`syncModel`): fetch tagged events, upsert
  each shift, delete leftovers.  The Google Calendar gateway is modelled as
  an oracle (`Gateway`) deciding whether each list/insert/patch/delete call
  succeeds; the run produces counters plus a trace of attempted operations.

Machine-level details follow CPython semantics: `str.strip`, truthiness of
strings/cells, `re.fullmatch(r"(\d{1,2}):(\d{2})", _)`,
`re.search(r'\b\d+\b', _)`, and `datetime.fromisoformat` (which accepts only
two-digit hour/minute fields in range, so a `H:MM` string that passed the
regex still raises `ValueError` and the shift is dropped).
-/

namespace MakeCalendar

/-- Python `str.isspace` characters relevant to `str.strip()` (ASCII part). -/
def pyIsSpace (c : Char) : Bool :=
  c = ' ' || c = '\t' || c = '\n' || c = '\r' || c = '\x0b' || c = '\x0c'

/-- Python `str.strip()` over the underlying characters. -/
def pyStrip (s : String) : String :=
  ⟨(s.data.dropWhile pyIsSpace).reverse.dropWhile pyIsSpace |>.reverse⟩

/-- `s.replace(':', '')` as used when building shift keys. -/
def stripColons (s : String) : String := ⟨s.data.filter (fun c => c ≠ ':')⟩

/-- `re.fullmatch(r"(\d{1,2}):(\d{2})", s)` : one or two digits, colon, two digits. -/
def isTimePat (s : String) : Bool :=
  match s.data with
  | [a, b, c, d] => a.isDigit && b = ':' && c.isDigit && d.isDigit
  | [a, b, c, d, e] => a.isDigit && b.isDigit && c = ':' && d.isDigit && e.isDigit
  | _ => false

/-- Numeric value of an ASCII digit. -/
def digitVal (c : Char) : Nat := c.toNat - 48

/-- The time component accepted by `datetime.fromisoformat("....THH:MM")`:
exactly two-digit hour and minute, hour ≤ 23, minute ≤ 59.  One-digit hours
raise `ValueError` in CPython, hence `none` here. -/
def pyParseTimeHM (s : String) : Option (Nat × Nat) :=
  match s.data with
  | [h1, h2, c, m1, m2] =>
    if h1.isDigit && h2.isDigit && c = ':' && m1.isDigit && m2.isDigit then
      let h := digitVal h1 * 10 + digitVal h2
      let m := digitVal m1 * 10 + digitVal m2
      if h ≤ 23 && m ≤ 59 then some (h, m) else none
    else none
  | _ => none

/-- Characters counted as word characters by `re` (`\w`, ASCII fragment). -/
def isWordChar (c : Char) : Bool := c.isAlphanum || c = '_'

/-- State machine for `re.search(r'\b\d+\b', s)`.
State `0`: previous character is a non-word character (or start);
state `1`: previous character is a word character but we are not inside a
viable digit run; state `2`: inside a digit run whose left boundary was ok. -/
def hasIntTokenAux : Nat → List Char → Bool
  | st, [] => st = 2
  | st, c :: cs =>
    if st = 2 then
      if c.isDigit then hasIntTokenAux 2 cs
      else if isWordChar c then hasIntTokenAux 1 cs
      else true
    else if c.isDigit then
      (if st = 0 then hasIntTokenAux 2 cs else hasIntTokenAux 1 cs)
    else if isWordChar c then hasIntTokenAux 1 cs
    else hasIntTokenAux 0 cs

/-- `re.search(r'\b\d+\b', s)` is not `None`. -/
def hasIntToken (s : String) : Bool := hasIntTokenAux 0 s.data

/-! ## Dates (semantics of `datetime.date` / `datetime.timedelta`) -/

/-- Standard Gregorian leap-year rule (what `datetime.date` implements). -/
def isLeap (y : Nat) : Bool := (y % 4 = 0 && y % 100 ≠ 0) || y % 400 = 0

/-- Number of days in a month per the standard Gregorian rule. -/
def daysInMonth (y m : Nat) : Nat :=
  if m = 2 then (if isLeap y then 29 else 28)
  else if m = 4 || m = 6 || m = 9 || m = 11 then 30
  else 31

/-- A calendar date as `datetime.date` holds it. -/
structure Date where
  year : Nat
  month : Nat
  day : Nat
deriving DecidableEq, Repr

/-- `d - timedelta(days=1)` for a valid date. -/
def predDate (d : Date) : Date :=
  if 1 < d.day then ⟨d.year, d.month, d.day - 1⟩
  else if 1 < d.month then ⟨d.year, d.month - 1, daysInMonth d.year (d.month - 1)⟩
  else ⟨d.year - 1, 12, 31⟩

/-- `d + timedelta(days=1)` for a valid date. -/
def succDate (d : Date) : Date :=
  if d.day < daysInMonth d.year d.month then ⟨d.year, d.month, d.day + 1⟩
  else if d.month < 12 then ⟨d.year, d.month + 1, 1⟩
  else ⟨d.year + 1, 1, 1⟩

/-- The source's day-count computation (app.py line 327):
`(dt.date(year, int(month_num_str) % 12 + 1, 1) - dt.timedelta(days=1)).day`. -/
def pythonNumDays (year m : Nat) : Nat := (predDate ⟨year, m % 12 + 1, 1⟩).day

/-- The `% 12 + 1` trick computes exactly the Gregorian month length. -/
theorem pythonNumDays_eq_daysInMonth (year m : Nat) (h1 : 1 ≤ m) (h2 : m ≤ 12) :
    pythonNumDays year m = daysInMonth year m := by
  interval_cases m <;> simp [pythonNumDays, predDate, daysInMonth, isLeap]

/-- Zero-pad to two digits (`%m`, `%d`, `%H`, `%M` formatting). -/
def pad2 (n : Nat) : String := if n < 10 then "0" ++ toString n else toString n

/-- Zero-pad to four digits (`%Y` formatting). -/
def pad4 (n : Nat) : String :=
  if n < 10 then "000" ++ toString n
  else if n < 100 then "00" ++ toString n
  else if n < 1000 then "0" ++ toString n
  else toString n

/-- `date.isoformat()`: `YYYY-MM-DD`. -/
def dateIso (d : Date) : String := pad4 d.year ++ "-" ++ pad2 d.month ++ "-" ++ pad2 d.day

/-- `f"{date:%Y%m%d}"`. -/
def dateCompact (d : Date) : String := pad4 d.year ++ pad2 d.month ++ pad2 d.day

/-! ## Raw shifts and `add_shift_if_valid` (app.py lines 494-520) -/

/-- The shift dict appended by `add_shift_if_valid`:
`{"key": ..., "date": ..., "start": ..., "end": ...}` (all strings). -/
structure Shift where
  key : String
  date : String
  start : String
  «end» : String
deriving DecidableEq, Repr

/-- `f"{date_obj:%Y%m%d}-{shift_type_idx}-{start.replace(':','')}-{end.replace(':','')}"`. -/
def shiftKey (d : Date) (idx : Nat) (ss es : String) : String :=
  dateCompact d ++ "-" ++ toString idx ++ "-" ++ stripColons ss ++ "-" ++ stripColons es

/-- `add_shift_if_valid(start_str, end_str, date_obj, shift_type_idx)` returns
the list of shifts it appends (empty or a singleton).  The arguments are the
optional stripped cell texts; Python truthiness rejects `None` and `""`.
A pair passing the regex but failing `datetime.fromisoformat` (one-digit or
out-of-range hour/minute) raises `ValueError`, which the source catches and
drops; the overnight `end_dt_obj` adjustment computed here is discarded
(only the strings are stored). -/
def add_shift_if_valid (start_str end_str : Option String) (date_obj : Date)
    (shift_type_idx : Nat) : List Shift :=
  match start_str, end_str with
  | some ss, some es =>
    if ss ≠ "" && isTimePat ss && es ≠ "" && isTimePat es then
      match pyParseTimeHM ss, pyParseTimeHM es with
      | some _, some _ =>
        [⟨shiftKey date_obj shift_type_idx ss es, dateIso date_obj, ss, es⟩]
      | _, _ => []
    else []
  | _, _ => []

/-! ## The per-month grid parser (app.py lines 187-524) -/

/-- A table cell as pdfplumber returns it: `None` or a text string. -/
abbrev Cell := Option String

/-- A 2-D grid of cells (`table_data`). -/
abbrev Grid := List (List Cell)

/-- `row[i].strip() if len(row) > i and row[i] else None` (lines 481-486). -/
def cellAt (row : List Cell) (i : Nat) : Option String :=
  match row.getD i none with
  | some c => if c = "" then none else some (pyStrip c)
  | none => none

/-- Predicate of the `start_day_col` scan (lines 314-317):
`cell and re.search(r'\b\d+\b', cell)`. -/
def dayCellPred : Cell → Bool
  | some c => c ≠ "" && hasIntToken c
  | none => false

/-- `(row[i] or "").strip()` used in the `first_data_col_idx` scan. -/
def orEmptyStrip (row : List Cell) (i : Nat) : String :=
  pyStrip ((row.getD i none).getD "")

/-- Condition of the `first_data_col_idx` scan (lines 408-412). -/
def firstDataColPred (s1s s2s : List Cell) (i : Nat) : Bool :=
  (decide (i < s1s.length) && isTimePat (orEmptyStrip s1s i)) ||
  (decide (i < s2s.length) && isTimePat (orEmptyStrip s2s i))

/-- Condition of the `data_col_start_idx` scan (lines 449-452):
`cell and cell.strip() != ''`. -/
def dataColPred : Cell → Bool
  | some c => c ≠ "" && pyStrip c ≠ ""
  | none => false

/-- The inner column loop (lines 471-522): `counter` is
`current_day_counter`, `offs` the remaining `col_offset` values, `dcs` is
`data_col_start_idx`.  The loop breaks when the day counter exceeds the
number of days in the month; otherwise it reads the four cells at
`col_idx = dcs + off` and calls `add_shift_if_valid` for each slot. -/
def colLoop (year month : Nat) (s1s s1e s2s s2e : List Cell)
    (dcs numDays : Nat) : Nat → List Nat → List Shift
  | _, [] => []
  | counter, off :: offs =>
    if numDays < counter then []
    else
      let colIdx := dcs + off
      let dateObj : Date := ⟨year, month, counter⟩
      add_shift_if_valid (cellAt s1s colIdx) (cellAt s1e colIdx) dateObj 1 ++
      add_shift_if_valid (cellAt s2s colIdx) (cellAt s2e colIdx) dateObj 2 ++
      colLoop year month s1s s1e s2s s2e dcs numDays (counter + 1) offs

/-- One iteration of the body of the (redundant) outer day loop
(lines 407-522): find `first_data_col_idx` and `data_col_start_idx`
(`continue` on failure, which contributes no shifts), compute
`max_data_cols`, then run the column loop with the day counter reset to 1. -/
def dayPass (year month : Nat) (s1s s1e s2s s2e : List Cell)
    (maxCols numDays : Nat) : List Shift :=
  match (List.range maxCols).find? (firstDataColPred s1s s2s) with
  | none => []
  | some _ =>
    match s1s.findIdx? dataColPred with
    | none => []
    | some dcs =>
      let maxDataCols := min (min s1s.length s1e.length) (min s2s.length s2e.length)
      colLoop year month s1s s1e s2s s2e dcs numDays 1 (List.range (maxDataCols - dcs))

/-- Processing of one month's `table_data` (lines 187-524).  Rows 0,1,2,4,5
are the day axis and the four shift rows; absent rows default to `[]`.
If no day-axis column is found the region is skipped.  The outer
`for day_num in range(1, num_days_in_month + 1)` loop (line 330) re-runs the
identical column loop once per day of the month, appending to the same
shift list each time. -/
def parseRegionTable (year month : Nat) (tableData : Grid) : List Shift :=
  let dayRow := tableData.getD 0 []
  let s1s := tableData.getD 1 []
  let s1e := tableData.getD 2 []
  let s2s := tableData.getD 4 []
  let s2e := tableData.getD 5 []
  match dayRow.findIdx? dayCellPred with
  | none => []
  | some _ =>
    let maxCols := [0, 1, 2, 4, 5].foldl
      (fun acc r => if r < tableData.length then max acc (tableData.getD r []).length else acc) 0
    let numDays := pythonNumDays year month
    let pass := dayPass year month s1s s1e s2s s2e maxCols numDays
    (List.range numDays).foldl (fun acc _ => acc ++ pass) []

/-- `MONTH_MAP`, composed with the later `int(month_num_str)` conversion. -/
def MONTH_MAP : List (String × Nat) :=
  [("GENER", 1), ("FEBRER", 2), ("MARÇ", 3), ("ABRIL", 4),
   ("MAIG", 5), ("JUNY", 6), ("JULIOL", 7), ("AGOST", 8),
   ("SETEMBRE", 9), ("OCTUBRE", 10), ("NOVEMBRE", 11), ("DESEMBRE", 12)]

/-- `MONTH_MAP.get(month_name)` (then `int`). -/
def monthLookup (name : String) : Option Nat :=
  (MONTH_MAP.find? (fun p => p.1 = name)).map (·.2)

instance exceptDecEq {ε α : Type} [DecidableEq ε] [DecidableEq α] :
    DecidableEq (Except ε α) := fun
  | .error a, .error b =>
    if h : a = b then .isTrue (by rw [h]) else .isFalse (by simp [h])
  | .error _, .ok _ => .isFalse (by simp)
  | .ok _, .error _ => .isFalse (by simp)
  | .ok a, .ok b =>
    if h : a = b then .isTrue (by rw [h]) else .isFalse (by simp [h])

/-- Input of one configured month region: the month name from
`MONTH_DATA_BOUNDING_BOXES`, and the outcome of the external
`crop`/`extract_tables` calls: an exception, or the list of detected tables. -/
structure RegionInput where
  monthName : String
  tables : Except Unit (List Grid)
deriving DecidableEq

/-- The region loop of `parse_pdf` (lines 146-524) with the surrounding
`try`/`except` (lines 137, 526-529): an exception while extracting any
region escapes to the outer handler, which returns `[]`, discarding the
shifts accumulated so far (`acc`).  A region with no tables, or a month
name missing from `MONTH_MAP`, is skipped with `continue`. -/
def parsePdfAux (year : Nat) : List RegionInput → List Shift → List Shift
  | [], acc => acc
  | r :: rs, acc =>
    match r.tables with
    | .error _ => []
    | .ok [] => parsePdfAux year rs acc
    | .ok (t :: _) =>
      match monthLookup r.monthName with
      | none => parsePdfAux year rs acc
      | some m => parsePdfAux year rs (acc ++ parseRegionTable year m t)

/-- `parse_pdf` over the configured regions (year already inferred from the
document title; `target_months=None`). -/
def parse_pdf (year : Nat) (regions : List RegionInput) : List Shift :=
  parsePdfAux year regions []

/-! ## Datetimes (`datetime.datetime` as used by `sync`) -/

/-- A datetime: date plus (hour, minute). -/
abbrev DT := Date × (Nat × Nat)

/-- `datetime.fromisoformat` on a `YYYY-MM-DDTHH:MM` string (the only shape
the canonical shifts produce); anything failing the shape or the range
checks raises `ValueError`, i.e. `none`. -/
def pyFromIso (s : String) : Option DT :=
  match s.data with
  | [y1, y2, y3, y4, c1, a1, a2, c2, b1, b2, ct, h1, h2, cc, n1, n2] =>
    if y1.isDigit && y2.isDigit && y3.isDigit && y4.isDigit && c1 = '-' &&
       a1.isDigit && a2.isDigit && c2 = '-' && b1.isDigit && b2.isDigit &&
       ct = 'T' && h1.isDigit && h2.isDigit && cc = ':' && n1.isDigit && n2.isDigit then
      let y := ((digitVal y1 * 10 + digitVal y2) * 10 + digitVal y3) * 10 + digitVal y4
      let mo := digitVal a1 * 10 + digitVal a2
      let d := digitVal b1 * 10 + digitVal b2
      let h := digitVal h1 * 10 + digitVal h2
      let mi := digitVal n1 * 10 + digitVal n2
      if 1 ≤ y && 1 ≤ mo && mo ≤ 12 && 1 ≤ d && d ≤ daysInMonth y mo &&
         h ≤ 23 && mi ≤ 59 then
        some (⟨y, mo, d⟩, (h, mi))
      else none
    else none
  | _ => none

/-- Date comparison (`datetime.date` is ordered lexicographically). -/
def dateLtB (a b : Date) : Bool :=
  a.year < b.year || (a.year = b.year &&
    (a.month < b.month || (a.month = b.month && a.day < b.day)))

/-- Time-of-day comparison. -/
def timeLtB (a b : Nat × Nat) : Bool := a.1 < b.1 || (a.1 = b.1 && a.2 < b.2)

/-- `datetime` comparison `<`: lexicographic on (date, time). -/
def dtLtB (a b : DT) : Bool := dateLtB a.1 b.1 || (a.1 = b.1 && timeLtB a.2 b.2)

/-- Lines 564-567 of `sync`: build both instants from the shift's strings and
apply the overnight rule (`end_dt_obj += dt.timedelta(days=1)` when the end
instant is before the start instant).  `none` models the `ValueError` that
escapes `sync`'s per-shift processing. -/
def syncInstants (s : Shift) : Option (DT × DT) :=
  match pyFromIso (s.date ++ "T" ++ s.start), pyFromIso (s.date ++ "T" ++ s.«end») with
  | some sdt, some edt =>
    some (sdt, if dtLtB edt sdt then (succDate edt.1, edt.2) else edt)
  | _, _ => none

/-! ## The reconciliation run (`sync`, app.py lines 533-602) -/

/-- A calendar event as `sync` observes it: the opaque id and the value of
`extendedProperties.private.key` when present (`none` = the event lacks the
expected extended property). -/
structure CalEvent where
  id : Nat
  key : Option String
deriving DecidableEq, Repr

/-- A gateway call attempted by a run, identified by the data that reaches
the wire: the target event id for patch/delete, the body's key for
insert/patch (the id of an insert is the one the gateway assigns on
success). -/
inductive CalOp where
  | insert (id : Nat) (key : String)
  | patch (id : Nat) (key : String)
  | delete (id : Nat)
deriving DecidableEq, Repr

/-- The `by_key` Python dict: insertion-ordered association list with
unique keys. -/
abbrev Dict := List (String × CalEvent)

/-- `d[k] = e`: overwrite in place if the key exists, else append. -/
def dictSet (d : Dict) (k : String) (e : CalEvent) : Dict :=
  if d.any (fun p => p.1 = k) then d.map (fun p => if p.1 = k then (k, e) else p)
  else d ++ [(k, e)]

/-- `d.get(k)` / `k in d`. -/
def dictGet? (d : Dict) (k : String) : Option CalEvent :=
  (d.find? (fun p => p.1 = k)).map (·.2)

/-- `del d[k]`. -/
def dictDel (d : Dict) (k : String) : Dict := d.filter (fun p => p.1 ≠ k)

/-- The keys of the dict. -/
def dictKeys (d : Dict) : List String := d.map (·.1)

/-- Lines 558-561: `by_key[e["extendedProperties"]["private"]["key"]] = e`
for each fetched event carrying the key property; keyless events are
skipped. -/
def buildByKey (evs : List CalEvent) : Dict :=
  evs.foldl (fun d e => match e.key with | some k => dictSet d k e | none => d) []

/-- Success oracle for the external Google Calendar gateway: whether the
initial listing succeeds, and whether each per-item insert/patch/delete call
succeeds (failure = `HttpError`). -/
structure Gateway where
  fetchOk : Bool
  insertOk : String → Bool
  patchOk : Nat → String → Bool
  deleteOk : Nat → Bool

/-- The gateway with every call succeeding. -/
def gwAllOk : Gateway := ⟨true, fun _ => true, fun _ _ => true, fun _ => true⟩

/-- Mutable state of one `sync` run: the three counters (line 534), the
`by_key` dict, the trace of attempted gateway calls with their outcomes,
and the next id the gateway will assign to a successful insert. -/
structure SyncSt where
  inserts : Nat
  updates : Nat
  deletes : Nat
  byKey : Dict
  trace : List (CalOp × Bool)
  nextId : Nat
deriving Repr, DecidableEq

/-- The upsert loop (lines 563-589).  A `ValueError` from the instant
construction escapes the loop (`.error`, carrying the state reached so
far); an `HttpError` on the patch/insert call is caught: the counter is not
incremented and—for a failed patch—the key stays in `by_key`. -/
def runUpserts (gw : Gateway) : List Shift → SyncSt → Except SyncSt SyncSt
  | [], st => .ok st
  | s :: rest, st =>
    match syncInstants s with
    | none => .error st
    | some _ =>
      match dictGet? st.byKey s.key with
      | some ev =>
        if gw.patchOk ev.id s.key then
          runUpserts gw rest
            { st with updates := st.updates + 1, byKey := dictDel st.byKey s.key,
                      trace := st.trace ++ [(.patch ev.id s.key, true)] }
        else
          runUpserts gw rest { st with trace := st.trace ++ [(.patch ev.id s.key, false)] }
      | none =>
        if gw.insertOk s.key then
          runUpserts gw rest
            { st with inserts := st.inserts + 1, nextId := st.nextId + 1,
                      trace := st.trace ++ [(.insert st.nextId s.key, true)] }
        else
          runUpserts gw rest { st with trace := st.trace ++ [(.insert st.nextId s.key, false)] }

/-- The delete loop (lines 592-596): attempt a delete for every event left
in `by_key`; an `HttpError` is caught and the loop continues.  Note that
the source never increments the `deletes` counter here. -/
def runDeletes (gw : Gateway) (pending : List CalEvent) (st : SyncSt) : SyncSt :=
  pending.foldl
    (fun st e => { st with trace := st.trace ++ [(.delete e.id, gw.deleteOk e.id)] }) st

/-- Initial state: counters zeroed, `by_key` built from the fetched events. -/
def initSt (fetched : List CalEvent) (nextId0 : Nat) : SyncSt :=
  ⟨0, 0, 0, buildByKey fetched, [], nextId0⟩

/-- `sync(creds, shifts)`: returns the counter triple, paired here with the
trace of attempted gateway calls.  An `HttpError` during the fetch listing
returns `(0, 0, 0)` before any per-item call (lines 553-555); any other
exception inside the run is caught at line 600 and also returns `(0, 0, 0)`,
discarding the counts of the calls already made. -/
def syncModel (gw : Gateway) (nextId0 : Nat) (shifts : List Shift)
    (fetched : List CalEvent) : (Nat × Nat × Nat) × List (CalOp × Bool) :=
  if gw.fetchOk then
    match runUpserts gw shifts (initSt fetched nextId0) with
    | .error st => ((0, 0, 0), st.trace)
    | .ok st =>
      let st2 := runDeletes gw (st.byKey.map (·.2)) st
      ((st2.inserts, st2.updates, st2.deletes), st2.trace)
  else ((0, 0, 0), [])

/-! ## Semantics of the gateway state (spec side)

The remote calendar is a set of events; a successful insert appends the new
event, a successful patch rewrites the key property of the event with the
target id, a successful delete removes it, and failed calls change
nothing. -/

/-- Effect of one attempted call on the calendar. -/
def applyOp (evs : List CalEvent) : CalOp × Bool → List CalEvent
  | (_, false) => evs
  | (.insert i k, true) => evs ++ [⟨i, some k⟩]
  | (.patch i k, true) => evs.map (fun e => if e.id = i then ⟨i, some k⟩ else e)
  | (.delete i, true) => evs.filter (fun e => e.id ≠ i)

/-- Effect of a whole trace. -/
def applyOps (evs : List CalEvent) (ops : List (CalOp × Bool)) : List CalEvent :=
  ops.foldl applyOp evs

/-- Keys of the events carrying the key property. -/
def keyedKeys (evs : List CalEvent) : List String := evs.filterMap (·.key)

/-- Keys of a shift list. -/
def keysOf (shifts : List Shift) : List String := shifts.map (·.key)

/-- The keyed events of a list, as (key, event) pairs in order. -/
def keyedPairs (evs : List CalEvent) : List (String × CalEvent) :=
  evs.filterMap (fun e => e.key.map (fun k => (k, e)))

/-- Recognize insert calls in a trace. -/
def isInsertOp : CalOp → Bool
  | .insert _ _ => true
  | _ => false

/-- Recognize patch calls in a trace. -/
def isPatchOp : CalOp → Bool
  | .patch _ _ => true
  | _ => false

/-- Recognize delete calls in a trace. -/
def isDeleteOp : CalOp → Bool
  | .delete _ => true
  | _ => false

/-- Number of successful calls of a given kind in a trace. -/
def succCount (p : CalOp → Bool) (tr : List (CalOp × Bool)) : Nat :=
  (tr.filter (fun ob => ob.2 && p ob.1)).length

/-- Format predicate of the specification: a canonical time string is
`HH:MM` with a two-digit zero-padded hour and a valid time of day. -/
def isCanonHHMM (s : String) : Bool :=
  match s.data with
  | [a, b, c, d, e] =>
    a.isDigit && b.isDigit && c = ':' && d.isDigit && e.isDigit &&
    decide (digitVal a * 10 + digitVal b ≤ 23) && decide (digitVal d * 10 + digitVal e ≤ 59)
  | _ => false

/-! ## Concrete inputs used by counterexamples and witnesses -/

/-- A minimal one-column month grid: day label `1`, first shift
`08:00`-`14:00`, second shift `22:00`-`23:00`. -/
def demoGrid : Grid :=
  [[some "1"], [some "08:00"], [some "14:00"], [], [some "22:00"], [some "23:00"]]

/-- The slot-1 shift that `demoGrid` describes for day 1. -/
def demoShift1 : Shift := ⟨"20230201-1-0800-1400", "2023-02-01", "08:00", "14:00"⟩

/-- A shift whose time strings pass the regex but whose hour is out of
range, so `datetime.fromisoformat` raises inside `sync`. -/
def badShift : Shift := ⟨"bad", "2024-03-10", "25:00", "14:00"⟩

/-! ## Claim theorems -/

/-- Claim C1 (code bug): the parser does NOT emit exactly one raw shift per
valid (day, slot) combination.  The redundant outer day loop (line 330)
re-runs the whole column loop once per day of the month with the day
counter reset to 1, so for February 2023 (28 days) the single valid
(day 1, slot 1) combination of `demoGrid` is emitted 28 times and the
region yields 56 shifts instead of 2. -/
theorem C1_combination_emitted_once_per_day_of_month :
    (parseRegionTable 2023 2 demoGrid).count demoShift1 = 28 ∧
    (parseRegionTable 2023 2 demoGrid).length = 56 := by decide

/-- Claim C2 (code bug): with one previously-tagged fetched event whose key
matches no shift, the run performs one successful delete call, yet returns
`(0, 0, 0)`: the `deletes` counter declared at line 534 and returned at
line 598 is never incremented in the delete loop (lines 592-596). -/
theorem C2_delete_counter_never_incremented :
    (syncModel gwAllOk 100 [] [⟨1, some "K"⟩]).1 = (0, 0, 0) ∧
    succCount isDeleteOp (syncModel gwAllOk 100 [] [⟨1, some "K"⟩]).2 = 1 := by decide

/-- Helper for claim C5: if any region's extraction raises, the whole
`parse_pdf` call returns `[]`, whatever was accumulated before. -/
theorem parsePdfAux_eq_nil_of_error (year : Nat) :
    ∀ (regions : List RegionInput) (acc : List Shift),
      (∃ r ∈ regions, r.tables = .error ()) → parsePdfAux year regions acc = [] := by
  intro regions
  induction regions with
  | nil => intro acc h; simp at h
  | cons r rs ih =>
    intro acc h
    rcases h with ⟨r', hr', herr⟩
    rcases List.mem_cons.mp hr' with h1 | h2
    · subst h1
      rw [parsePdfAux, herr]
    · rw [parsePdfAux]
      cases htab : r.tables with
      | error e => rfl
      | ok ts =>
        cases ts with
        | nil => exact ih acc ⟨r', h2, herr⟩
        | cons t ts' =>
          cases monthLookup r.monthName <;> exact ih _ ⟨r', h2, herr⟩

/-- Claim C5, counterexample: an exception while extracting the second
region does NOT leave the first region's shifts intact — the whole parse
returns `[]`, although the first region alone yields shifts. -/
theorem C5_counterexample :
    parse_pdf 2023 [⟨"GENER", .ok [demoGrid]⟩, ⟨"FEBRER", .error ()⟩] = [] ∧
    parse_pdf 2023 [⟨"GENER", .ok [demoGrid]⟩] ≠ [] := by decide

/-- Claim C5, amended: any internal parsing exception is caught at the
whole-parse level (line 526) and converted to an empty result for the
entire document: processing of the remaining regions is aborted and shifts
already extracted from earlier regions are discarded. -/
theorem C5_exception_empties_whole_parse (year : Nat) (regions : List RegionInput)
    (h : ∃ r ∈ regions, r.tables = .error ()) : parse_pdf year regions = [] :=
  parsePdfAux_eq_nil_of_error year regions [] h

/-- Witness for the amended claim C5 at a concrete input. -/
theorem C5_exception_empties_whole_parse_witness :
    (∃ r ∈ [(⟨"FEBRER", .error ()⟩ : RegionInput)], r.tables = .error ()) ∧
    parse_pdf 2024 [⟨"FEBRER", .error ()⟩] = [] :=
  ⟨by decide, C5_exception_empties_whole_parse 2024 [⟨"FEBRER", .error ()⟩] (by decide)⟩

/-- Claim C6, counterexample: two fetched tagged events share the key `"K"`
and there are no shifts, so both events' keys match no shift; yet only the
later event (id 2) receives a delete call — the earlier one is silently
dropped when `by_key` overwrites the entry, refuting "deletes exactly those
fetched previously-tagged events whose key matches no shift". -/
theorem C6_counterexample :
    (syncModel gwAllOk 100 [] [⟨1, some "K"⟩, ⟨2, some "K"⟩]).2 =
      [(CalOp.delete 2, true)] ∧
    (CalOp.delete 1, true) ∉ (syncModel gwAllOk 100 [] [⟨1, some "K"⟩, ⟨2, some "K"⟩]).2 := by
  decide

/-- A time string accepted by the `fromisoformat` model is canonical
`HH:MM`: five characters, two-digit hour ≤ 23, two-digit minute ≤ 59. -/
theorem isCanon_of_parse (s : String) (h : (pyParseTimeHM s).isSome) :
    isCanonHHMM s = true := by
  obtain ⟨l⟩ := s
  rcases l with _ | ⟨a, _ | ⟨b, _ | ⟨c, _ | ⟨d, _ | ⟨e, _ | ⟨f, l⟩⟩⟩⟩⟩⟩ <;>
    simp only [pyParseTimeHM, isCanonHHMM] at h ⊢ <;> try simp at h
  split at h
  · split at h
    · simp_all
    · simp at h
  · simp at h

/-- Claim C7, counterexample: a raw time with a one-digit hour matches the
`H{1,2}:MM` regex but is NOT zero-padded and accepted: `fromisoformat`
raises on it and the shift is dropped. -/
theorem C7_counterexample :
    isTimePat "8:00" = true ∧
    add_shift_if_valid (some "8:00") (some "14:00") ⟨2023, 2, 1⟩ 1 = [] := by decide

/-- Claim C7, amended: normalization performs no padding at all; instead,
one-digit-hour (and out-of-range) times are rejected, so every emitted
shift's `start`/`end` are already canonical `HH:MM` with a two-digit hour,
and the key is built from the raw strings' digits (which therefore are the
four-digit `HHMM` forms). -/
theorem C7_emitted_times_canonical (a b : Option String) (d : Date) (idx : Nat)
    (s : Shift) (hs : s ∈ add_shift_if_valid a b d idx) :
    isCanonHHMM s.start = true ∧ isCanonHHMM s.«end» = true ∧
    s.key = dateCompact d ++ "-" ++ toString idx ++ "-" ++
            stripColons s.start ++ "-" ++ stripColons s.«end» := by
  cases a with
  | none => simp [add_shift_if_valid] at hs
  | some ss =>
    cases b with
    | none => simp [add_shift_if_valid] at hs
    | some es =>
      rw [add_shift_if_valid] at hs
      split at hs
      · rcases h1 : pyParseTimeHM ss with _ | v1 <;> rw [h1] at hs
        · simp at hs
        · rcases h2 : pyParseTimeHM es with _ | v2 <;> rw [h2] at hs
          · simp at hs
          · rcases List.mem_singleton.mp hs with rfl
            refine ⟨isCanon_of_parse ss (by rw [h1]; rfl),
                    isCanon_of_parse es (by rw [h2]; rfl), ?_⟩
            rfl
      · simp at hs

/-- Witness for the amended claim C7 at a concrete input. -/
theorem C7_emitted_times_canonical_witness :
    demoShift1 ∈ add_shift_if_valid (some "08:00") (some "14:00") ⟨2023, 2, 1⟩ 1 ∧
    (isCanonHHMM demoShift1.start = true ∧ isCanonHHMM demoShift1.«end» = true ∧
     demoShift1.key = dateCompact ⟨2023, 2, 1⟩ ++ "-" ++ toString 1 ++ "-" ++
       stripColons demoShift1.start ++ "-" ++ stripColons demoShift1.«end») :=
  ⟨by decide,
   C7_emitted_times_canonical (some "08:00") (some "14:00") ⟨2023, 2, 1⟩ 1 demoShift1
     (by decide)⟩

/-- Comparing two datetimes on the same date compares the times. -/
theorem dtLtB_same_date (d : Date) (t1 t2 : Nat × Nat) :
    dtLtB (d, t1) (d, t2) = timeLtB t1 t2 := by
  simp [dtLtB, dateLtB]

/-- Claim C3: the overnight rule.  For a shift whose strings parse to date
`ds` with times `st`, `en`, the constructed start instant is `(ds, st)`;
the end instant has time-of-day `en` always, and its date is advanced by
exactly one day precisely when the end time is before the start time —
no other adjustment is applied. -/
theorem C3_overnight_rule (s : Shift) (ds de : Date) (st en : Nat × Nat)
    (hs : pyFromIso (s.date ++ "T" ++ s.start) = some (ds, st))
    (he : pyFromIso (s.date ++ "T" ++ s.«end») = some (de, en)) :
    syncInstants s = some ((ds, st),
      if dtLtB (de, en) (ds, st) then (succDate de, en) else (de, en)) ∧
    (de = ds →
      (timeLtB en st = true → syncInstants s = some ((ds, st), (succDate ds, en))) ∧
      (timeLtB en st = false → syncInstants s = some ((ds, st), (ds, en)))) := by
  constructor
  · rw [syncInstants, hs, he]
  · rintro rfl
    constructor <;> intro h <;> rw [syncInstants, hs, he] <;>
      simp [dtLtB_same_date, h]

/-- Witness for claim C3: the specification's own example
(date 2024-03-10, start 22:00, end 06:00 rolls to 2024-03-11T06:00). -/
theorem C3_overnight_rule_witness :
    pyFromIso ("2024-03-10" ++ "T" ++ "22:00") = some (⟨2024, 3, 10⟩, (22, 0)) ∧
    pyFromIso ("2024-03-10" ++ "T" ++ "06:00") = some (⟨2024, 3, 10⟩, (6, 0)) ∧
    syncInstants ⟨"k", "2024-03-10", "22:00", "06:00"⟩ =
      some ((⟨2024, 3, 10⟩, (22, 0)), (⟨2024, 3, 11⟩, (6, 0))) := by
  refine ⟨by decide, by decide, ?_⟩
  have h := C3_overnight_rule ⟨"k", "2024-03-10", "22:00", "06:00"⟩
    ⟨2024, 3, 10⟩ ⟨2024, 3, 10⟩ (22, 0) (6, 0) (by decide) (by decide)
  exact ((h.2 rfl).1 (by decide)).trans (by decide)

/-- Every shift appended by `add_shift_if_valid` carries the ISO form of the
date it was called with. -/
theorem add_shift_date (a b : Option String) (d : Date) (idx : Nat) (s : Shift)
    (hs : s ∈ add_shift_if_valid a b d idx) : s.date = dateIso d := by
  cases a with
  | none => simp [add_shift_if_valid] at hs
  | some ss =>
    cases b with
    | none => simp [add_shift_if_valid] at hs
    | some es =>
      rw [add_shift_if_valid] at hs
      split at hs
      · rcases h1 : pyParseTimeHM ss with _ | v1 <;> rw [h1] at hs
        · simp at hs
        · rcases h2 : pyParseTimeHM es with _ | v2 <;> rw [h2] at hs
          · simp at hs
          · rcases List.mem_singleton.mp hs with rfl; rfl
      · simp at hs

/-- Every shift emitted by the column loop is dated between the current
counter value and the month's day count. -/
theorem colLoop_day_bound (year month : Nat) (s1s s1e s2s s2e : List Cell)
    (dcs numDays : Nat) :
    ∀ (offs : List Nat) (counter : Nat) (s : Shift),
      s ∈ colLoop year month s1s s1e s2s s2e dcs numDays counter offs →
      ∃ dday, counter ≤ dday ∧ dday ≤ numDays ∧ s.date = dateIso ⟨year, month, dday⟩ := by
  intro offs
  induction offs with
  | nil => intro counter s hs; simp [colLoop] at hs
  | cons off offs ih =>
    intro counter s hs
    rw [colLoop] at hs
    split at hs
    · simp at hs
    · rename_i hnd
      rcases List.mem_append.mp hs with hs' | hrec
      · rcases List.mem_append.mp hs' with h1 | h2
        · exact ⟨counter, le_refl _, Nat.le_of_not_lt hnd, add_shift_date _ _ _ _ s h1⟩
        · exact ⟨counter, le_refl _, Nat.le_of_not_lt hnd, add_shift_date _ _ _ _ s h2⟩
      · rcases ih (counter + 1) s hrec with ⟨dday, h1, h2, h3⟩
        exact ⟨dday, Nat.le_of_succ_le h1, h2, h3⟩

/-- Day bound for one pass of the outer day loop. -/
theorem dayPass_day_bound (year month : Nat) (s1s s1e s2s s2e : List Cell)
    (maxCols numDays : Nat) (s : Shift)
    (hs : s ∈ dayPass year month s1s s1e s2s s2e maxCols numDays) :
    ∃ dday, 1 ≤ dday ∧ dday ≤ numDays ∧ s.date = dateIso ⟨year, month, dday⟩ := by
  rw [dayPass] at hs
  rcases h1 : (List.range maxCols).find? (firstDataColPred s1s s2s) with _ | i <;>
    rw [h1] at hs
  · simp at hs
  · rcases h2 : s1s.findIdx? dataColPred with _ | dcs <;> rw [h2] at hs
    · simp at hs
    · exact colLoop_day_bound year month s1s s1e s2s s2e dcs numDays _ 1 s hs

/-- Membership in the fold of the outer day loop reduces to membership in
one pass. -/
theorem mem_foldl_append_const {α : Type} (pass : List α) (s : α) :
    ∀ (l : List Nat) (acc : List α),
      s ∈ l.foldl (fun a _ => a ++ pass) acc → s ∈ acc ∨ s ∈ pass := by
  intro l
  induction l with
  | nil => intro acc hs; exact Or.inl hs
  | cons x xs ih =>
    intro acc hs
    rcases ih (acc ++ pass) hs with h | h
    · rcases List.mem_append.mp h with h' | h'
      · exact Or.inl h'
      · exact Or.inr h'
    · exact Or.inr h

/-- Day bound for the whole per-month parse. -/
theorem parseRegionTable_day_bound (year month : Nat) (g : Grid) (s : Shift)
    (hs : s ∈ parseRegionTable year month g) :
    ∃ dday, 1 ≤ dday ∧ dday ≤ pythonNumDays year month ∧
      s.date = dateIso ⟨year, month, dday⟩ := by
  rw [parseRegionTable] at hs
  rcases h1 : (g.getD 0 []).findIdx? dayCellPred with _ | i <;> rw [h1] at hs
  · simp at hs
  · rcases mem_foldl_append_const _ s _ _ hs with h | h
    · simp at h
    · exact dayPass_day_bound year month _ _ _ _ _ _ s h

/-- A month found in `MONTH_MAP` is numbered between 1 and 12. -/
theorem monthLookup_range (name : String) (m : Nat)
    (h : monthLookup name = some m) : 1 ≤ m ∧ m ≤ 12 := by
  rw [monthLookup] at h
  rcases h2 : MONTH_MAP.find? (fun p => p.1 = name) with _ | pr <;> rw [h2] at h
  · simp at h
  · have hmem := List.mem_of_find?_eq_some h2
    have hall : ∀ pr ∈ MONTH_MAP, 1 ≤ pr.2 ∧ pr.2 ≤ 12 := by decide
    have hpr : pr.2 = m := by simpa using h
    rcases hpr with rfl
    exact hall pr hmem

/-- Membership in the region fold: a parsed shift comes from the
accumulator or from some region's table under its looked-up month. -/
theorem parsePdfAux_mem (year : Nat) :
    ∀ (regions : List RegionInput) (acc : List Shift) (s : Shift),
      s ∈ parsePdfAux year regions acc →
      s ∈ acc ∨ ∃ m g, (∃ r ∈ regions, monthLookup r.monthName = some m) ∧
        s ∈ parseRegionTable year m g := by
  intro regions
  induction regions with
  | nil => intro acc s hs; exact Or.inl hs
  | cons r rs ih =>
    intro acc s hs
    rw [parsePdfAux] at hs
    cases htab : r.tables with
    | error e => rw [htab] at hs; simp at hs
    | ok ts =>
      rw [htab] at hs
      cases ts with
      | nil =>
        rcases ih acc s hs with h | ⟨m, g, ⟨r', hr', hm⟩, hmem⟩
        · exact Or.inl h
        · exact Or.inr ⟨m, g, ⟨r', List.mem_cons_of_mem r hr', hm⟩, hmem⟩
      | cons t ts' =>
        rcases hml : monthLookup r.monthName with _ | m0 <;> rw [hml] at hs
        · rcases ih acc s hs with h | ⟨m, g, ⟨r', hr', hm⟩, hmem⟩
          · exact Or.inl h
          · exact Or.inr ⟨m, g, ⟨r', List.mem_cons_of_mem r hr', hm⟩, hmem⟩
        · rcases ih _ s hs with h | ⟨m, g, ⟨r', hr', hm⟩, hmem⟩
          · rcases List.mem_append.mp h with h' | h'
            · exact Or.inl h'
            · exact Or.inr ⟨m0, t, ⟨r, List.mem_cons_self r rs, hml⟩, h'⟩
          · exact Or.inr ⟨m, g, ⟨r', List.mem_cons_of_mem r hr', hm⟩, hmem⟩

/-- Claim C8: the parser never emits a shift whose day number exceeds the
number of days in that month of that year, with month lengths given by the
standard Gregorian rule (`daysInMonth`, leap years included). -/
theorem C8_day_count_bound (year : Nat) (regions : List RegionInput) (s : Shift)
    (hs : s ∈ parse_pdf year regions) :
    ∃ m dday, 1 ≤ m ∧ m ≤ 12 ∧ 1 ≤ dday ∧ dday ≤ daysInMonth year m ∧
      s.date = dateIso ⟨year, m, dday⟩ := by
  rcases parsePdfAux_mem year regions [] s hs with h | ⟨m, g, ⟨r', _, hm⟩, hmem⟩
  · simp at h
  · rcases monthLookup_range _ _ hm with ⟨hm1, hm2⟩
    rcases parseRegionTable_day_bound year m g s hmem with ⟨dday, hd1, hd2, hd3⟩
    rw [pythonNumDays_eq_daysInMonth year m hm1 hm2] at hd2
    exact ⟨m, dday, hm1, hm2, hd1, hd2, hd3⟩

/-- Witness for claim C8 at a concrete input: February 2024 of `demoGrid`. -/
theorem C8_day_count_bound_witness :
    demoShift1 ∈ parse_pdf 2023 [⟨"FEBRER", .ok [demoGrid]⟩] ∧
    (∃ m dday, 1 ≤ m ∧ m ≤ 12 ∧ 1 ≤ dday ∧ dday ≤ daysInMonth 2023 m ∧
      demoShift1.date = dateIso ⟨2023, m, dday⟩) :=
  ⟨by decide, C8_day_count_bound 2023 [⟨"FEBRER", .ok [demoGrid]⟩] demoShift1 (by decide)⟩

/-- Processing a concatenation of shift lists composes sequentially (the
exception, if any, propagates). -/
theorem runUpserts_append (gw : Gateway) :
    ∀ (l1 l2 : List Shift) (st : SyncSt),
      runUpserts gw (l1 ++ l2) st =
        match runUpserts gw l1 st with
        | .ok st1 => runUpserts gw l2 st1
        | .error st1 => .error st1 := by
  intro l1
  induction l1 with
  | nil => intro l2 st; rfl
  | cons s l1 ih =>
    intro l2 st
    rw [List.cons_append]
    rcases hsi : syncInstants s with _ | v
    · simp only [runUpserts, hsi]
    · rcases hg : dictGet? st.byKey s.key with _ | ev
      · cases hb : gw.insertOk s.key <;>
          simp only [runUpserts, hsi, hg, hb, Bool.false_eq_true, if_true, if_false,
            reduceCtorEq, reduceIte] <;> exact ih l2 _
      · cases hb : gw.patchOk ev.id s.key <;>
          simp only [runUpserts, hsi, hg, hb, Bool.false_eq_true, if_true, if_false,
            reduceCtorEq, reduceIte] <;> exact ih l2 _

/-- The upsert loop only raises when a shift's strings fail the datetime
construction: if every shift parses, it completes normally. -/
theorem runUpserts_ok_of_parses (gw : Gateway) :
    ∀ (l : List Shift) (st : SyncSt), (∀ s ∈ l, (syncInstants s).isSome) →
      ∃ st1, runUpserts gw l st = .ok st1 := by
  intro l
  induction l with
  | nil => intro st _; exact ⟨st, rfl⟩
  | cons s l ih =>
    intro st hp
    have hs : (syncInstants s).isSome := hp s (List.mem_cons_self s l)
    rcases h1 : syncInstants s with _ | v
    · rw [h1] at hs; simp at hs
    · rcases hg : dictGet? st.byKey s.key with _ | ev
      · cases hb : gw.insertOk s.key <;>
          simp only [runUpserts, h1, hg, hb, Bool.false_eq_true, if_true, if_false,
            reduceCtorEq, reduceIte] <;>
          exact ih _ (fun x hx => hp x (List.mem_cons_of_mem s hx))
      · cases hb : gw.patchOk ev.id s.key <;>
          simp only [runUpserts, h1, hg, hb, Bool.false_eq_true, if_true, if_false,
            reduceCtorEq, reduceIte] <;>
          exact ih _ (fun x hx => hp x (List.mem_cons_of_mem s hx))

/-- Claim C10: if a non-`HttpError` exception is raised inside the run — here
the `ValueError` from building a shift's instants, after the shifts in `pre`
have already been processed and their gateway calls issued — the run
returns `(0, 0, 0)` while its trace still holds the calls already made, so
the reported counters understate the operations performed. -/
theorem C10_exception_zeroes_counters (gw : Gateway) (pre post : List Shift)
    (bad : Shift) (fetched : List CalEvent) (nid : Nat)
    (hf : gw.fetchOk = true)
    (hpre : ∀ s ∈ pre, (syncInstants s).isSome)
    (hbad : syncInstants bad = none) :
    ∃ st, runUpserts gw pre (initSt fetched nid) = .ok st ∧
      syncModel gw nid (pre ++ bad :: post) fetched = ((0, 0, 0), st.trace) := by
  obtain ⟨st1, h1⟩ := runUpserts_ok_of_parses gw pre (initSt fetched nid) hpre
  refine ⟨st1, h1, ?_⟩
  rw [syncModel, if_pos hf]
  simp only [runUpserts_append, h1]
  simp only [runUpserts, hbad]

/-- Witness for claim C10: one good shift is inserted, then the bad shift
raises; the run reports `(0, 0, 0)` although a successful insert happened. -/
theorem C10_exception_zeroes_counters_witness :
    gwAllOk.fetchOk = true ∧ (∀ s ∈ [demoShift1], (syncInstants s).isSome) ∧
    syncInstants badShift = none ∧
    syncModel gwAllOk 100 ([demoShift1] ++ badShift :: []) [] =
      ((0, 0, 0), [(CalOp.insert 100 demoShift1.key, true)]) := by
  refine ⟨rfl, by decide, by decide, ?_⟩
  obtain ⟨st, h1, h2⟩ := C10_exception_zeroes_counters gwAllOk [demoShift1] []
    badShift [] 100 rfl (by decide) (by decide)
  have h3 : runUpserts gwAllOk [demoShift1] (initSt ([] : List CalEvent) 100) =
      .ok ⟨1, 0, 0, [], [(CalOp.insert 100 demoShift1.key, true)], 101⟩ := by decide
  rw [h1] at h3
  rcases Except.ok.inj h3 with rfl
  exact h2

@[simp] theorem isInsertOp_insert (i : Nat) (k : String) :
    isInsertOp (.insert i k) = true := rfl

@[simp] theorem isInsertOp_patch (i : Nat) (k : String) :
    isInsertOp (.patch i k) = false := rfl

@[simp] theorem isInsertOp_delete (i : Nat) : isInsertOp (.delete i) = false := rfl

@[simp] theorem isPatchOp_insert (i : Nat) (k : String) :
    isPatchOp (.insert i k) = false := rfl

@[simp] theorem isPatchOp_patch (i : Nat) (k : String) :
    isPatchOp (.patch i k) = true := rfl

@[simp] theorem isPatchOp_delete (i : Nat) : isPatchOp (.delete i) = false := rfl

@[simp] theorem isDeleteOp_insert (i : Nat) (k : String) :
    isDeleteOp (.insert i k) = false := rfl

@[simp] theorem isDeleteOp_patch (i : Nat) (k : String) :
    isDeleteOp (.patch i k) = false := rfl

@[simp] theorem isDeleteOp_delete (i : Nat) : isDeleteOp (.delete i) = true := rfl

/-- `succCount` distributes over trace concatenation. -/
theorem succCount_append (p : CalOp → Bool) (t1 t2 : List (CalOp × Bool)) :
    succCount p (t1 ++ t2) = succCount p t1 + succCount p t2 := by
  simp [succCount, List.filter_append]

/-- Delete calls contribute nothing to a count of insert or patch calls. -/
theorem succCount_map_delete (p : CalOp → Bool) (hp : ∀ i, p (CalOp.delete i) = false)
    (gw : Gateway) (l : List CalEvent) :
    succCount p (l.map fun e => (CalOp.delete e.id, gw.deleteOk e.id)) = 0 := by
  induction l with
  | nil => rfl
  | cons e rest ih =>
    simp only [List.map_cons, succCount, List.filter_cons, hp e.id, Bool.and_false,
      Bool.false_eq_true, if_false] at ih ⊢
    exact ih

/-- The delete-phase trace holds no insert or patch calls. -/
theorem filter_upsert_map_delete (gw : Gateway) (l : List CalEvent) :
    (l.map fun e => (CalOp.delete e.id, gw.deleteOk e.id)).filter
      (fun ob => isInsertOp ob.1 || isPatchOp ob.1) = [] := by
  induction l with
  | nil => rfl
  | cons e rest ih => simp only [List.map_cons, List.filter_cons]; simp [ih]

/-- Characterization of one upsert pass under an arbitrary gateway: it never
raises when all shifts parse, it appends one attempted insert-or-patch call
per shift (failures included), the `inserts`/`updates` counters grow by
exactly the numbers of successful insert/patch calls, and the `deletes`
counter is untouched. -/
theorem runUpserts_counts (gw : Gateway) :
    ∀ (shifts : List Shift) (st : SyncSt), (∀ s ∈ shifts, (syncInstants s).isSome) →
      ∃ st' tr', runUpserts gw shifts st = .ok st' ∧
        st'.trace = st.trace ++ tr' ∧
        st'.inserts = st.inserts + succCount isInsertOp tr' ∧
        st'.updates = st.updates + succCount isPatchOp tr' ∧
        st'.deletes = st.deletes ∧
        (tr'.filter (fun ob => isInsertOp ob.1 || isPatchOp ob.1)).length = shifts.length ∧
        (∀ ob ∈ tr', isDeleteOp ob.1 = false) := by
  intro shifts
  induction shifts with
  | nil =>
    intro st _
    exact ⟨st, [], rfl, by simp, by simp [succCount], by simp [succCount], rfl, rfl,
      by simp⟩
  | cons s rest ih =>
    intro st hp
    have htail : ∀ x ∈ rest, (syncInstants x).isSome :=
      fun x hx => hp x (List.mem_cons_of_mem s hx)
    rcases h1 : syncInstants s with _ | v
    · exact absurd (hp s (List.mem_cons_self s rest)) (by rw [h1]; simp)
    · rcases hg : dictGet? st.byKey s.key with _ | ev
      · cases hb : gw.insertOk s.key
        · obtain ⟨st', tr', hok, htr, hins, hupd, hdel, hlen, hnod⟩ :=
            ih { st with trace := st.trace ++ [(.insert st.nextId s.key, false)] } htail
          refine ⟨st', (.insert st.nextId s.key, false) :: tr', ?_, ?_, ?_, ?_, ?_, ?_, ?_⟩
          · simp only [runUpserts, h1, hg, hb, Bool.false_eq_true, if_false, reduceIte]
            exact hok
          · rw [htr]; simp
          · rw [hins]; simp [succCount, List.filter_cons]
          · rw [hupd]; simp [succCount, List.filter_cons]
          · exact hdel
          · simp [List.filter_cons, hlen]
          · intro ob hob
            rcases List.mem_cons.mp hob with rfl | hob'
            · rfl
            · exact hnod ob hob'
        · obtain ⟨st', tr', hok, htr, hins, hupd, hdel, hlen, hnod⟩ :=
            ih { st with inserts := st.inserts + 1, nextId := st.nextId + 1, trace := st.trace ++ [(.insert st.nextId s.key, true)] } htail
          refine ⟨st', (.insert st.nextId s.key, true) :: tr', ?_, ?_, ?_, ?_, ?_, ?_, ?_⟩
          · simp only [runUpserts, h1, hg, hb, if_true, reduceIte]
            exact hok
          · rw [htr]; simp
          · rw [hins]; simp [succCount, List.filter_cons]; omega
          · rw [hupd]; simp [succCount, List.filter_cons]
          · exact hdel
          · simp [List.filter_cons, hlen]
          · intro ob hob
            rcases List.mem_cons.mp hob with rfl | hob'
            · rfl
            · exact hnod ob hob'
      · cases hb : gw.patchOk ev.id s.key
        · obtain ⟨st', tr', hok, htr, hins, hupd, hdel, hlen, hnod⟩ :=
            ih { st with trace := st.trace ++ [(.patch ev.id s.key, false)] } htail
          refine ⟨st', (.patch ev.id s.key, false) :: tr', ?_, ?_, ?_, ?_, ?_, ?_, ?_⟩
          · simp only [runUpserts, h1, hg, hb, Bool.false_eq_true, if_false, reduceIte]
            exact hok
          · rw [htr]; simp
          · rw [hins]; simp [succCount, List.filter_cons]
          · rw [hupd]; simp [succCount, List.filter_cons]
          · exact hdel
          · simp [List.filter_cons, hlen]
          · intro ob hob
            rcases List.mem_cons.mp hob with rfl | hob'
            · rfl
            · exact hnod ob hob'
        · obtain ⟨st', tr', hok, htr, hins, hupd, hdel, hlen, hnod⟩ :=
            ih { st with updates := st.updates + 1, byKey := dictDel st.byKey s.key, trace := st.trace ++ [(.patch ev.id s.key, true)] } htail
          refine ⟨st', (.patch ev.id s.key, true) :: tr', ?_, ?_, ?_, ?_, ?_, ?_, ?_⟩
          · simp only [runUpserts, h1, hg, hb, if_true, reduceIte]
            exact hok
          · rw [htr]; simp
          · rw [hins]; simp [succCount, List.filter_cons]
          · rw [hupd]; simp [succCount, List.filter_cons]; omega
          · exact hdel
          · simp [List.filter_cons, hlen]
          · intro ob hob
            rcases List.mem_cons.mp hob with rfl | hob'
            · rfl
            · exact hnod ob hob'

/-- The delete loop only appends the delete calls to the trace; counters and
the rest of the state are untouched (in particular the `deletes` counter,
which the source forgets to increment). -/
theorem runDeletes_spec (gw : Gateway) :
    ∀ (pending : List CalEvent) (st : SyncSt),
      runDeletes gw pending st =
        { st with trace := st.trace ++
            pending.map (fun e => (CalOp.delete e.id, gw.deleteOk e.id)) } := by
  intro pending
  induction pending with
  | nil => intro st; simp [runDeletes]
  | cons e rest ih =>
    intro st
    have h1 : runDeletes gw (e :: rest) st =
        runDeletes gw rest
          { st with trace := st.trace ++ [(CalOp.delete e.id, gw.deleteOk e.id)] } := rfl
    rw [h1, ih]
    simp

/-- Claim C9: gateway item errors are non-fatal and isolated.  When every
shift parses and the fetch succeeds, the run completes with a trace holding
exactly one attempted insert-or-patch call per shift (so no failure aborts
the loops), and the returned counters count exactly the successful insert
and patch calls of the trace — failed calls are no-ops (the third counter
is the constant 0 the source returns). -/
theorem C9_item_errors_isolated (gw : Gateway) (shifts : List Shift)
    (fetched : List CalEvent) (nid : Nat)
    (hf : gw.fetchOk = true)
    (hp : ∀ s ∈ shifts, (syncInstants s).isSome) :
    ∃ tr, syncModel gw nid shifts fetched =
        ((succCount isInsertOp tr, succCount isPatchOp tr, 0), tr) ∧
      (tr.filter (fun ob => isInsertOp ob.1 || isPatchOp ob.1)).length = shifts.length := by
  obtain ⟨st', tr', hok, htr, hins, hupd, hdel, hlen, _⟩ :=
    runUpserts_counts gw shifts (initSt fetched nid) hp
  have htr0 : st'.trace = tr' := by simpa [initSt] using htr
  refine ⟨st'.trace ++ (st'.byKey.map (·.2)).map
    (fun e => (CalOp.delete e.id, gw.deleteOk e.id)), ?_, ?_⟩
  · rw [syncModel, if_pos hf]
    simp only [hok, runDeletes_spec]
    rw [htr0]
    simp only [succCount_append, succCount_map_delete isInsertOp (fun _ => rfl),
      succCount_map_delete isPatchOp (fun _ => rfl), Nat.add_zero]
    rw [← htr0]
    simp only [hins, hupd, hdel, initSt]
    rw [htr0]
    simp
  · rw [htr0, List.filter_append, filter_upsert_map_delete, List.append_nil, hlen]

/-- Witness for claim C9: the specification's five-shift scenario with the
insert of key `"C"` failing — four successes are counted, the failed call
is a no-op, and all five shifts were attempted. -/
theorem C9_item_errors_isolated_witness :
    (⟨true, fun k => k ≠ "C", fun _ _ => true, fun _ => true⟩ : Gateway).fetchOk = true ∧
    (∀ s ∈ [(⟨"A", "2024-03-10", "08:00", "14:00"⟩ : Shift),
            ⟨"B", "2024-03-10", "08:00", "14:00"⟩, ⟨"C", "2024-03-10", "08:00", "14:00"⟩,
            ⟨"D", "2024-03-10", "08:00", "14:00"⟩, ⟨"E", "2024-03-10", "08:00", "14:00"⟩],
      (syncInstants s).isSome) ∧
    (∃ tr, syncModel ⟨true, fun k => k ≠ "C", fun _ _ => true, fun _ => true⟩ 100
        [⟨"A", "2024-03-10", "08:00", "14:00"⟩, ⟨"B", "2024-03-10", "08:00", "14:00"⟩,
         ⟨"C", "2024-03-10", "08:00", "14:00"⟩, ⟨"D", "2024-03-10", "08:00", "14:00"⟩,
         ⟨"E", "2024-03-10", "08:00", "14:00"⟩] [] =
        ((succCount isInsertOp tr, succCount isPatchOp tr, 0), tr) ∧
      (tr.filter (fun ob => isInsertOp ob.1 || isPatchOp ob.1)).length = 5) :=
  ⟨rfl, by decide,
   C9_item_errors_isolated ⟨true, fun k => k ≠ "C", fun _ _ => true, fun _ => true⟩
     [⟨"A", "2024-03-10", "08:00", "14:00"⟩, ⟨"B", "2024-03-10", "08:00", "14:00"⟩,
      ⟨"C", "2024-03-10", "08:00", "14:00"⟩, ⟨"D", "2024-03-10", "08:00", "14:00"⟩,
      ⟨"E", "2024-03-10", "08:00", "14:00"⟩] [] 100 rfl (by decide)⟩

/-! ## Dictionary and fetch-phase lemmas -/

/-- Membership in the dict's key list. -/
theorem mem_dictKeys (d : Dict) (k : String) : k ∈ dictKeys d ↔ ∃ p ∈ d, p.1 = k := by
  simp [dictKeys]

/-- A successful lookup returns an entry of the dict. -/
theorem dictGet?_some (d : Dict) (k : String) (e : CalEvent)
    (h : dictGet? d k = some e) : (k, e) ∈ d := by
  rw [dictGet?] at h
  rcases h2 : d.find? (fun p => p.1 = k) with _ | p <;> rw [h2] at h
  · simp at h
  · have hmem := List.mem_of_find?_eq_some h2
    have hk : p.1 = k := by simpa using List.find?_some h2
    have he : p.2 = e := by simpa using h
    rw [← hk, ← he]
    exact hmem

/-- A failed lookup means no entry has the key. -/
theorem dictGet?_none (d : Dict) (k : String) (h : dictGet? d k = none) :
    ∀ p ∈ d, p.1 ≠ k := by
  rw [dictGet?] at h
  rcases h2 : d.find? (fun p => p.1 = k) with _ | p <;> rw [h2] at h
  · intro p hp
    have := List.find?_eq_none.mp h2 p hp
    simpa using this
  · simp at h

/-- A present key has a successful lookup. -/
theorem dictGet?_isSome_of_mem (d : Dict) (k : String) (h : k ∈ dictKeys d) :
    ∃ e, dictGet? d k = some e := by
  rcases (mem_dictKeys d k).mp h with ⟨p, hp, hk⟩
  rcases h2 : d.find? (fun p => p.1 = k) with _ | q
  · have := List.find?_eq_none.mp h2 p hp
    simp [hk] at this
  · exact ⟨q.2, by rw [dictGet?, h2]; rfl⟩

/-- Setting an absent key appends the entry. -/
theorem dictSet_of_not_mem (d : Dict) (k : String) (e : CalEvent)
    (h : ∀ p ∈ d, p.1 ≠ k) : dictSet d k e = d ++ [(k, e)] := by
  rw [dictSet, if_neg]
  intro hc
  rcases List.any_eq_true.mp hc with ⟨p, hp, hpk⟩
  exact h p hp (by simpa using hpk)

/-- Membership in the keyed-pairs list. -/
theorem mem_keyedPairs (evs : List CalEvent) (k : String) (e : CalEvent) :
    (k, e) ∈ keyedPairs evs ↔ e ∈ evs ∧ e.key = some k := by
  simp only [keyedPairs, List.mem_filterMap]
  constructor
  · rintro ⟨a, ha, hae⟩
    rcases hk : a.key with _ | k' <;> rw [hk] at hae
    · simp at hae
    · have h1 : k' = k ∧ a = e := by simpa using hae
      rcases h1 with ⟨rfl, rfl⟩
      exact ⟨ha, hk⟩
  · rintro ⟨he, hk⟩
    exact ⟨e, he, by rw [hk]; rfl⟩

/-- Under distinct keyed keys, `by_key` is exactly the keyed-pairs list. -/
theorem buildByKey_go (evs : List CalEvent) :
    ∀ (acc : Dict), (keyedKeys evs).Nodup →
      (∀ k, k ∈ dictKeys acc → k ∉ keyedKeys evs) →
      evs.foldl (fun d e => match e.key with | some k => dictSet d k e | none => d) acc =
        acc ++ keyedPairs evs := by
  induction evs with
  | nil => intro acc _ _; simp [keyedPairs]
  | cons e rest ih =>
    intro acc hnd hdisj
    rcases hk : e.key with _ | k
    · have h1 : keyedKeys (e :: rest) = keyedKeys rest := by simp [keyedKeys, hk]
      have h2 : keyedPairs (e :: rest) = keyedPairs rest := by simp [keyedPairs, hk]
      simp only [List.foldl_cons, hk, h2]
      exact ih acc (h1 ▸ hnd) (fun k' hk' => h1 ▸ hdisj k' hk')
    · have h1 : keyedKeys (e :: rest) = k :: keyedKeys rest := by simp [keyedKeys, hk]
      have h2 : keyedPairs (e :: rest) = (k, e) :: keyedPairs rest := by
        simp [keyedPairs, hk]
      have hknotacc : ∀ p ∈ acc, p.1 ≠ k := by
        intro p hp hpk
        exact hdisj k ((mem_dictKeys acc k).mpr ⟨p, hp, hpk⟩) (h1 ▸ List.mem_cons_self k _)
      simp only [List.foldl_cons, hk, h2]
      rw [dictSet_of_not_mem acc k e hknotacc]
      have hnd' : (keyedKeys rest).Nodup := by
        rw [h1] at hnd; exact hnd.of_cons
      have hknot : k ∉ keyedKeys rest := by
        rw [h1] at hnd; exact (List.nodup_cons.mp hnd).1
      have hdisj' : ∀ k', k' ∈ dictKeys (acc ++ [(k, e)]) → k' ∉ keyedKeys rest := by
        intro k' hk'
        rcases (mem_dictKeys _ k').mp hk' with ⟨p, hp, hpk⟩
        rcases List.mem_append.mp hp with hpa | hpe
        · exact fun hc =>
            hdisj k' ((mem_dictKeys acc k').mpr ⟨p, hpa, hpk⟩)
              (h1 ▸ List.mem_cons_of_mem k hc)
        · have : p = (k, e) := by simpa using hpe
          rw [this] at hpk
          rw [← hpk]
          exact hknot
      rw [ih (acc ++ [(k, e)]) hnd' hdisj', List.append_assoc]
      rfl

/-- Under distinct keyed keys, `by_key` equals the keyed-pairs list. -/
theorem buildByKey_eq (evs : List CalEvent) (h : (keyedKeys evs).Nodup) :
    buildByKey evs = keyedPairs evs := by
  have := buildByKey_go evs [] h (by simp [dictKeys])
  simpa [buildByKey] using this

/-- Deleting a key then filtering out later keys is one combined filter. -/
theorem dictDel_filter (d : Dict) (k : String) (ks : List String) :
    (dictDel d k).filter (fun p => decide (p.1 ∉ ks)) =
      d.filter (fun p => decide (p.1 ∉ k :: ks)) := by
  rw [dictDel, List.filter_filter]
  apply List.filter_congr
  intro p _
  by_cases h1 : p.1 = k <;> by_cases h2 : p.1 ∈ ks <;> simp [h1, h2]

/-- Filtering out keys a dict does not contain is the identity filter step. -/
theorem filter_not_mem_cons (d : Dict) (k : String) (ks : List String)
    (h : ∀ p ∈ d, p.1 ≠ k) :
    d.filter (fun p => decide (p.1 ∉ ks)) = d.filter (fun p => decide (p.1 ∉ k :: ks)) := by
  apply List.filter_congr
  intro p hp
  have := h p hp
  simp [this]

/-- When every patch call succeeds, the upsert pass removes exactly the
shift keys from `by_key`; its trace holds no delete calls and every patch
call targets the id of a value of the initial dict. -/
theorem runUpserts_patchOk (gw : Gateway) (hpatch : ∀ i k, gw.patchOk i k = true) :
    ∀ (shifts : List Shift) (st : SyncSt), (∀ s ∈ shifts, (syncInstants s).isSome) →
      ∃ st' tr', runUpserts gw shifts st = .ok st' ∧
        st'.trace = st.trace ++ tr' ∧
        st'.byKey = st.byKey.filter (fun p => decide (p.1 ∉ keysOf shifts)) ∧
        (∀ i k b, (CalOp.patch i k, b) ∈ tr' → ∃ p ∈ st.byKey, p.2.id = i) ∧
        (∀ i b, (CalOp.delete i, b) ∉ tr') := by
  intro shifts
  induction shifts with
  | nil =>
    intro st _
    refine ⟨st, [], rfl, by simp, by simp [keysOf], by simp, by simp⟩
  | cons s rest ih =>
    intro st hp
    have htail : ∀ x ∈ rest, (syncInstants x).isSome :=
      fun x hx => hp x (List.mem_cons_of_mem s hx)
    have hkeys : keysOf (s :: rest) = s.key :: keysOf rest := rfl
    rcases h1 : syncInstants s with _ | v
    · exact absurd (hp s (List.mem_cons_self s rest)) (by rw [h1]; simp)
    · rcases hg : dictGet? st.byKey s.key with _ | ev
      · cases hb : gw.insertOk s.key
        · obtain ⟨st', tr', hok, htr, hbk, hpt, hnd⟩ :=
            ih { st with trace := st.trace ++ [(.insert st.nextId s.key, false)] } htail
          refine ⟨st', (.insert st.nextId s.key, false) :: tr', ?_, ?_, ?_, ?_, ?_⟩
          · simp only [runUpserts, h1, hg, hb, Bool.false_eq_true, if_false, reduceIte]
            exact hok
          · rw [htr]; simp
          · rw [hbk, hkeys]
            exact (filter_not_mem_cons st.byKey s.key (keysOf rest)
              (dictGet?_none st.byKey s.key hg)).symm ▸ rfl
          · intro i k b hmem
            rcases List.mem_cons.mp hmem with hhd | htl
            · simp at hhd
            · exact hpt i k b htl
          · intro i b hmem
            rcases List.mem_cons.mp hmem with hhd | htl
            · simp at hhd
            · exact hnd i b htl
        · obtain ⟨st', tr', hok, htr, hbk, hpt, hnd⟩ :=
            ih { st with inserts := st.inserts + 1, nextId := st.nextId + 1, trace := st.trace ++ [(.insert st.nextId s.key, true)] } htail
          refine ⟨st', (.insert st.nextId s.key, true) :: tr', ?_, ?_, ?_, ?_, ?_⟩
          · simp only [runUpserts, h1, hg, hb, if_true, reduceIte]
            exact hok
          · rw [htr]; simp
          · rw [hbk, hkeys]
            exact (filter_not_mem_cons st.byKey s.key (keysOf rest)
              (dictGet?_none st.byKey s.key hg)).symm ▸ rfl
          · intro i k b hmem
            rcases List.mem_cons.mp hmem with hhd | htl
            · simp at hhd
            · exact hpt i k b htl
          · intro i b hmem
            rcases List.mem_cons.mp hmem with hhd | htl
            · simp at hhd
            · exact hnd i b htl
      · obtain ⟨st', tr', hok, htr, hbk, hpt, hnd⟩ :=
          ih { st with updates := st.updates + 1, byKey := dictDel st.byKey s.key, trace := st.trace ++ [(.patch ev.id s.key, true)] } htail
        refine ⟨st', (.patch ev.id s.key, true) :: tr', ?_, ?_, ?_, ?_, ?_⟩
        · simp only [runUpserts, h1, hg, hpatch ev.id s.key, if_true, reduceIte]
          exact hok
        · rw [htr]; simp
        · rw [hbk, hkeys]
          exact dictDel_filter st.byKey s.key (keysOf rest)
        · intro i k b hmem
          rcases List.mem_cons.mp hmem with hhd | htl
          · simp only [Prod.mk.injEq, CalOp.patch.injEq] at hhd
            rcases hhd with ⟨⟨rfl, rfl⟩, rfl⟩
            exact ⟨(s.key, ev), dictGet?_some st.byKey s.key ev hg, rfl⟩
          · rcases hpt i k b htl with ⟨p, hp, hpi⟩
            exact ⟨p, List.mem_of_mem_filter hp, hpi⟩
        · intro i b hmem
          rcases List.mem_cons.mp hmem with hhd | htl
          · simp at hhd
          · exact hnd i b htl

/-- Claim C6, amended: in a run whose patch calls all succeed and whose
fetched keyed events have pairwise-distinct keys (and distinct ids), the
delete phase attempts a delete for exactly those fetched keyed events whose
key matches no shift key; fetched events lacking the key extended property
are never targeted by a patch or delete call. -/
theorem C6_frame_and_delete_exactness (gw : Gateway) (shifts : List Shift)
    (fetched : List CalEvent) (nid : Nat)
    (hf : gw.fetchOk = true)
    (hpatch : ∀ i k, gw.patchOk i k = true)
    (hp : ∀ s ∈ shifts, (syncInstants s).isSome)
    (hkeys : (keyedKeys fetched).Nodup)
    (hids : (fetched.map (·.id)).Nodup) :
    ∀ e ∈ fetched,
      (e.key = none →
        (∀ k b, (CalOp.patch e.id k, b) ∉ (syncModel gw nid shifts fetched).2) ∧
        (∀ b, (CalOp.delete e.id, b) ∉ (syncModel gw nid shifts fetched).2)) ∧
      (∀ k, e.key = some k →
        ((∃ b, (CalOp.delete e.id, b) ∈ (syncModel gw nid shifts fetched).2) ↔
          k ∉ keysOf shifts)) := by
  obtain ⟨st', tr', hok, htr, hbk, hpt, hnd⟩ :=
    runUpserts_patchOk gw hpatch shifts (initSt fetched nid) hp
  have hinj : ∀ x ∈ fetched, ∀ y ∈ fetched, x.id = y.id → x = y := by
    intro x hx y hy hxy
    exact List.inj_on_of_nodup_map hids hx hy hxy
  have hbk0 : (initSt fetched nid).byKey = keyedPairs fetched := buildByKey_eq fetched hkeys
  have htr0 : st'.trace = tr' := by simpa [initSt] using htr
  have hmodel : (syncModel gw nid shifts fetched).2 =
      tr' ++ (st'.byKey.map (·.2)).map (fun v => (CalOp.delete v.id, gw.deleteOk v.id)) := by
    rw [syncModel, if_pos hf]
    simp only [hok, runDeletes_spec]
    rw [htr0]
  have hbkmem : ∀ p ∈ st'.byKey, p.2 ∈ fetched ∧ p.2.key = some p.1 ∧ p.1 ∉ keysOf shifts := by
    rintro ⟨k0, e0⟩ hp'
    rw [hbk, hbk0] at hp'
    have h1 := List.mem_of_mem_filter hp'
    have h2 := List.of_mem_filter hp'
    rcases (mem_keyedPairs fetched k0 e0).mp h1 with ⟨hm, hk⟩
    exact ⟨hm, hk, by simpa using h2⟩
  have hbase : ∀ p ∈ (initSt fetched nid).byKey, p.2 ∈ fetched ∧ p.2.key = some p.1 := by
    rintro ⟨k0, e0⟩ hp'
    rw [hbk0] at hp'
    rcases (mem_keyedPairs fetched k0 e0).mp hp' with ⟨hm, hk⟩
    exact ⟨hm, hk⟩
  intro e he
  constructor
  · intro hkey
    constructor
    · intro k b hcon
      rw [hmodel] at hcon
      rcases List.mem_append.mp hcon with hin | hin
      · rcases hpt e.id k b hin with ⟨p, hpmem, hpid⟩
        rcases hbase p hpmem with ⟨hpf, hpk⟩
        have : p.2 = e := hinj p.2 hpf e he hpid
        rw [this, hkey] at hpk
        exact Option.noConfusion hpk
      · rcases List.mem_map.mp hin with ⟨v, _, hveq⟩
        simp at hveq
    · intro b hcon
      rw [hmodel] at hcon
      rcases List.mem_append.mp hcon with hin | hin
      · exact hnd e.id b hin
      · rcases List.mem_map.mp hin with ⟨v, hvmem, hveq⟩
        rcases List.mem_map.mp hvmem with ⟨p, hpmem, rfl⟩
        rcases hbkmem p hpmem with ⟨hpf, hpk, _⟩
        have hvid : p.2.id = e.id := by
          have := congrArg (fun ob => ob.1) hveq
          simpa using this
        have : p.2 = e := hinj p.2 hpf e he hvid
        rw [this, hkey] at hpk
        exact Option.noConfusion hpk
  · intro k hkey
    constructor
    · rintro ⟨b, hcon⟩
      rw [hmodel] at hcon
      rcases List.mem_append.mp hcon with hin | hin
      · exact absurd hin (hnd e.id b)
      · rcases List.mem_map.mp hin with ⟨v, hvmem, hveq⟩
        rcases List.mem_map.mp hvmem with ⟨p, hpmem, rfl⟩
        rcases hbkmem p hpmem with ⟨hpf, hpk, hpnot⟩
        have hvid : p.2.id = e.id := by
          have := congrArg (fun ob => ob.1) hveq
          simpa using this
        have hpe : p.2 = e := hinj p.2 hpf e he hvid
        have hp1 : p.1 = k := by
          rw [hpe, hkey] at hpk
          exact (Option.some.inj hpk).symm
        rw [← hp1]
        exact hpnot
    · intro hknot
      refine ⟨gw.deleteOk e.id, ?_⟩
      rw [hmodel]
      apply List.mem_append.mpr
      right
      apply List.mem_map.mpr
      refine ⟨e, ?_, rfl⟩
      apply List.mem_map.mpr
      refine ⟨(k, e), ?_, rfl⟩
      rw [hbk, hbk0]
      exact List.mem_filter.mpr ⟨(mem_keyedPairs fetched k e).mpr ⟨he, hkey⟩,
        by simpa using hknot⟩

/-- Witness for the amended claim C6: one matched keyed event (patched, not
deleted), one unmatched keyed event (deleted), one keyless event (never
touched). -/
theorem C6_frame_and_delete_exactness_witness :
    (gwAllOk.fetchOk = true) ∧
    (∀ s ∈ [demoShift1], (syncInstants s).isSome) ∧
    (keyedKeys [⟨5, some "20230201-1-0800-1400"⟩, ⟨6, some "Z"⟩, ⟨7, none⟩]).Nodup ∧
    (([(⟨5, some "20230201-1-0800-1400"⟩ : CalEvent), ⟨6, some "Z"⟩, ⟨7, none⟩].map (·.id)).Nodup) ∧
    ((∀ k b, (CalOp.patch 7 k, b) ∉
        (syncModel gwAllOk 100 [demoShift1]
          [⟨5, some "20230201-1-0800-1400"⟩, ⟨6, some "Z"⟩, ⟨7, none⟩]).2) ∧
     (∀ b, (CalOp.delete 7, b) ∉
        (syncModel gwAllOk 100 [demoShift1]
          [⟨5, some "20230201-1-0800-1400"⟩, ⟨6, some "Z"⟩, ⟨7, none⟩]).2)) ∧
    ((∃ b, (CalOp.delete 6, b) ∈
        (syncModel gwAllOk 100 [demoShift1]
          [⟨5, some "20230201-1-0800-1400"⟩, ⟨6, some "Z"⟩, ⟨7, none⟩]).2) ↔
      "Z" ∉ keysOf [demoShift1]) := by
  refine ⟨rfl, by decide, by decide, by decide, ?_, ?_⟩
  · exact ((C6_frame_and_delete_exactness gwAllOk [demoShift1]
      [⟨5, some "20230201-1-0800-1400"⟩, ⟨6, some "Z"⟩, ⟨7, none⟩] 100 rfl
      (fun _ _ => rfl) (by decide) (by decide) (by decide)
      ⟨7, none⟩ (by decide)).1 rfl)
  · exact ((C6_frame_and_delete_exactness gwAllOk [demoShift1]
      [⟨5, some "20230201-1-0800-1400"⟩, ⟨6, some "Z"⟩, ⟨7, none⟩] 100 rfl
      (fun _ _ => rfl) (by decide) (by decide) (by decide)
      ⟨6, some "Z"⟩ (by decide)).2 "Z" rfl)

/-! ## Calendar-state lemmas for the idempotence claim -/

/-- Membership in the keyed keys of an event list. -/
theorem mem_keyedKeys (l : List CalEvent) (x : String) :
    x ∈ keyedKeys l ↔ ∃ e ∈ l, e.key = some x := by
  simp [keyedKeys, List.mem_filterMap]

/-- Membership in the keys of a shift list. -/
theorem mem_keysOf (shifts : List Shift) (x : String) :
    x ∈ keysOf shifts ↔ ∃ s ∈ shifts, s.key = x := by
  simp [keysOf, List.mem_map]

/-- Applying a concatenated trace applies the parts in order. -/
theorem applyOps_append (evs : List CalEvent) (t1 t2 : List (CalOp × Bool)) :
    applyOps evs (t1 ++ t2) = applyOps (applyOps evs t1) t2 := by
  simp [applyOps, List.foldl_append]

/-- A patch whose target already carries the written key is a no-op on the
calendar state. -/
theorem applyOp_patch_id (i : Nat) (k : String) :
    ∀ (evs : List CalEvent), (∀ e ∈ evs, e.id = i → e = ⟨i, some k⟩) →
      applyOp evs (CalOp.patch i k, true) = evs := by
  intro evs h
  simp only [applyOp]
  induction evs with
  | nil => rfl
  | cons e rest ih =>
    simp only [List.map_cons]
    have h1 : (if e.id = i then (⟨i, some k⟩ : CalEvent) else e) = e := by
      by_cases hei : e.id = i
      · rw [if_pos hei, h e (List.mem_cons_self e rest) hei]
      · rw [if_neg hei]
    rw [h1, ih (fun x hx => h x (List.mem_cons_of_mem e hx))]

/-- Applying the delete calls for a list of victims filters their ids out. -/
theorem applyOps_deletes (V : List CalEvent) :
    ∀ (evs : List CalEvent),
      applyOps evs (V.map (fun v => (CalOp.delete v.id, true))) =
        evs.filter (fun e => decide (e.id ∉ V.map (·.id))) := by
  induction V with
  | nil =>
    intro evs
    simp [applyOps]
  | cons v rest ih =>
    intro evs
    simp only [List.map_cons]
    have h1 : applyOps evs ((CalOp.delete v.id, true) ::
        rest.map (fun v => (CalOp.delete v.id, true))) =
        applyOps (evs.filter (fun e => decide (e.id ≠ v.id)))
          (rest.map (fun v => (CalOp.delete v.id, true))) := rfl
    rw [h1, ih, List.filter_filter]
    apply List.filter_congr
    intro e _
    by_cases h2 : e.id = v.id <;> by_cases h3 : e.id ∈ rest.map (·.id) <;> simp [h2, h3]

/-- Keys after a dict update. -/
theorem mem_dictKeys_dictSet (d : Dict) (k : String) (e : CalEvent) (x : String) :
    x ∈ dictKeys (dictSet d k e) ↔ x ∈ dictKeys d ∨ x = k := by
  rw [dictSet]
  split
  · rename_i hany
    constructor
    · intro hm
      rcases (mem_dictKeys _ x).mp hm with ⟨p, hp, hpx⟩
      rcases List.mem_map.mp hp with ⟨q, hq, rfl⟩
      by_cases hqk : q.1 = k
      · rw [if_pos hqk] at hpx
        right; exact hpx.symm
      · rw [if_neg hqk] at hpx
        exact Or.inl ((mem_dictKeys d x).mpr ⟨q, hq, hpx⟩)
    · intro hm
      rcases hm with hm | hm2
      · rcases (mem_dictKeys d x).mp hm with ⟨q, hq, hqx⟩
        apply (mem_dictKeys _ x).mpr
        by_cases hqk : q.1 = k
        · refine ⟨(k, e), List.mem_map.mpr ⟨q, hq, by rw [if_pos hqk]⟩, ?_⟩
          rw [← hqx, hqk]
        · exact ⟨q, List.mem_map.mpr ⟨q, hq, by rw [if_neg hqk]⟩, hqx⟩
      · rcases List.any_eq_true.mp hany with ⟨q, hq, hqk⟩
        apply (mem_dictKeys _ x).mpr
        have hqk' : q.1 = k := by simpa using hqk
        exact ⟨(k, e), List.mem_map.mpr ⟨q, hq, by rw [if_pos hqk']⟩, hm2.symm⟩
  · constructor
    · intro hm
      rcases (mem_dictKeys _ x).mp hm with ⟨p, hp, hpx⟩
      rcases List.mem_append.mp hp with hp' | hp'
      · exact Or.inl ((mem_dictKeys d x).mpr ⟨p, hp', hpx⟩)
      · have hpe : p = (k, e) := by simpa using hp'
        right; rw [hpe] at hpx; exact hpx.symm
    · intro hm
      apply (mem_dictKeys _ x).mpr
      rcases hm with hm | hm2
      · rcases (mem_dictKeys d x).mp hm with ⟨q, hq, hqx⟩
        exact ⟨q, List.mem_append.mpr (Or.inl hq), hqx⟩
      · exact ⟨(k, e), List.mem_append.mpr (Or.inr (by simp)), hm2.symm⟩

/-- Keys after a dict deletion. -/
theorem mem_dictKeys_dictDel (d : Dict) (k x : String) :
    x ∈ dictKeys (dictDel d k) ↔ x ∈ dictKeys d ∧ x ≠ k := by
  constructor
  · intro hm
    rcases (mem_dictKeys _ x).mp hm with ⟨p, hp, hpx⟩
    have h1 := List.mem_of_mem_filter hp
    have h2 := List.of_mem_filter hp
    refine ⟨(mem_dictKeys d x).mpr ⟨p, h1, hpx⟩, ?_⟩
    rw [← hpx]
    simpa using h2
  · rintro ⟨hm, hne⟩
    rcases (mem_dictKeys d x).mp hm with ⟨p, hp, hpx⟩
    exact (mem_dictKeys _ x).mpr
      ⟨p, List.mem_filter.mpr ⟨hp, by simp [hpx, hne]⟩, hpx⟩

/-- A key reaches `by_key` exactly when some fetched event carries it. -/
theorem mem_dictKeys_buildByKey (evs : List CalEvent) (x : String) :
    x ∈ dictKeys (buildByKey evs) ↔ x ∈ keyedKeys evs := by
  have hgo : ∀ (l : List CalEvent) (acc : Dict),
      x ∈ dictKeys (l.foldl
        (fun d e => match e.key with | some k => dictSet d k e | none => d) acc) ↔
      x ∈ dictKeys acc ∨ x ∈ keyedKeys l := by
    intro l
    induction l with
    | nil => intro acc; simp [keyedKeys]
    | cons e rest ih =>
      intro acc
      rcases hk : e.key with _ | k
      · have h1 : keyedKeys (e :: rest) = keyedKeys rest := by simp [keyedKeys, hk]
        simp only [List.foldl_cons, hk, h1]
        exact ih acc
      · have h1 : keyedKeys (e :: rest) = k :: keyedKeys rest := by simp [keyedKeys, hk]
        simp only [List.foldl_cons, hk, h1]
        rw [ih (dictSet acc k e), mem_dictKeys_dictSet]
        simp only [List.mem_cons]
        tauto
  rw [buildByKey, hgo evs []]
  simp [dictKeys]

/-- Igniting nothing: filtering a dict by exclusion of keys it is contained
in yields the empty dict. -/
theorem dict_filter_nil_of_all_mem (d : Dict) (ks : List String)
    (h : ∀ p ∈ d, p.1 ∈ ks) :
    d.filter (fun p => decide (p.1 ∉ ks)) = [] := by
  rw [List.filter_eq_nil_iff]
  intro p hp
  simp [h p hp]

/-- Full characterization of the upsert pass when every gateway call
succeeds: the final `by_key` drops the shift keys; the trace, applied to
the calendar state, appends exactly the inserted events, whose keys are
shift keys; every shift key is either present in the initial dict or
inserted; inserted ids are fresh, and the id list stays duplicate-free. -/
theorem runUpserts_allOk (gw : Gateway) (hpatch : ∀ i k, gw.patchOk i k = true)
    (hins : ∀ k, gw.insertOk k = true) :
    ∀ (shifts : List Shift) (st : SyncSt) (evs : List CalEvent),
      (∀ s ∈ shifts, (syncInstants s).isSome) →
      (∀ p ∈ st.byKey, p.2 ∈ evs ∧ p.2.key = some p.1) →
      ((evs.map (·.id)).Nodup) →
      (∀ e ∈ evs, e.id < st.nextId) →
      ∃ st' tr' newEvs, runUpserts gw shifts st = .ok st' ∧
        st'.trace = st.trace ++ tr' ∧
        st'.byKey = st.byKey.filter (fun p => decide (p.1 ∉ keysOf shifts)) ∧
        applyOps evs tr' = evs ++ newEvs ∧
        (∀ x ∈ keyedKeys newEvs, x ∈ keysOf shifts) ∧
        (∀ s ∈ shifts, s.key ∈ dictKeys st.byKey ∨ s.key ∈ keyedKeys newEvs) ∧
        (∀ ev ∈ newEvs, st.nextId ≤ ev.id) ∧
        (((evs ++ newEvs).map (·.id)).Nodup) ∧
        (∀ e ∈ evs ++ newEvs, e.id < st'.nextId) := by
  intro shifts
  induction shifts with
  | nil =>
    intro st evs _ _ hnodup hbound
    refine ⟨st, [], [], rfl, by simp, by simp [keysOf], by simp [applyOps], ?_, ?_, ?_, ?_, ?_⟩
    · simp [keyedKeys]
    · simp
    · simp
    · simpa using hnodup
    · simpa using hbound
  | cons s rest ih =>
    intro st evs hp hbk hnodup hbound
    have htail : ∀ x ∈ rest, (syncInstants x).isSome :=
      fun x hx => hp x (List.mem_cons_of_mem s hx)
    have hkeys : keysOf (s :: rest) = s.key :: keysOf rest := rfl
    rcases h1 : syncInstants s with _ | v
    · exact absurd (hp s (List.mem_cons_self s rest)) (by rw [h1]; simp)
    · rcases hg : dictGet? st.byKey s.key with _ | ev
      · -- insert branch; the gateway accepts it
        have hnodup1 : (((evs ++ [(⟨st.nextId, some s.key⟩ : CalEvent)]).map (·.id)).Nodup) := by
          rw [List.map_append, List.nodup_append]
          refine ⟨hnodup, by simp, ?_⟩
          intro x hx hx2
          simp only [List.map_cons, List.map_nil, List.mem_singleton] at hx2
          rcases List.mem_map.mp hx with ⟨e, he, hei⟩
          have hb := hbound e he
          omega
        have hbk1 : ∀ p ∈ st.byKey,
            p.2 ∈ evs ++ [(⟨st.nextId, some s.key⟩ : CalEvent)] ∧ p.2.key = some p.1 :=
          fun p hp' => ⟨List.mem_append.mpr (Or.inl (hbk p hp').1), (hbk p hp').2⟩
        have hbound1 : ∀ e ∈ evs ++ [(⟨st.nextId, some s.key⟩ : CalEvent)],
            e.id < st.nextId + 1 := by
          intro e he
          rcases List.mem_append.mp he with he' | he'
          · exact Nat.lt_succ_of_lt (hbound e he')
          · have : e = ⟨st.nextId, some s.key⟩ := by simpa using he'
            rw [this]; exact Nat.lt_succ_self _
        obtain ⟨st', tr'', new'', hok, htr, hbk', happ, hkk, hcov, hlo, hnd', hbd'⟩ :=
          ih { st with inserts := st.inserts + 1, nextId := st.nextId + 1, trace := st.trace ++ [(.insert st.nextId s.key, true)] }
            (evs ++ [⟨st.nextId, some s.key⟩]) htail hbk1 hnodup1 hbound1
        refine ⟨st', (.insert st.nextId s.key, true) :: tr'',
          (⟨st.nextId, some s.key⟩ : CalEvent) :: new'', ?_, ?_, ?_, ?_, ?_, ?_, ?_, ?_, ?_⟩
        · simp only [runUpserts, h1, hg, hins s.key, if_true, reduceIte]
          exact hok
        · rw [htr]; simp
        · rw [hbk', hkeys]
          exact filter_not_mem_cons st.byKey s.key (keysOf rest)
            (dictGet?_none st.byKey s.key hg)
        · have happ0 : applyOps evs ((CalOp.insert st.nextId s.key, true) :: tr'') =
              applyOps (evs ++ [⟨st.nextId, some s.key⟩]) tr'' := rfl
          rw [happ0, happ, List.append_assoc]
          rfl
        · intro x hx
          have hx' : x ∈ s.key :: keyedKeys new'' := by simpa [keyedKeys] using hx
          rw [hkeys]
          rcases List.mem_cons.mp hx' with rfl | hx''
          · exact List.mem_cons_self _ _
          · exact List.mem_cons_of_mem _ (hkk x hx'')
        · intro s' hs'
          rcases List.mem_cons.mp hs' with rfl | hs''
          · exact Or.inr ((mem_keyedKeys _ _).mpr
              ⟨⟨st.nextId, some s'.key⟩, List.mem_cons_self _ _, rfl⟩)
          · rcases hcov s' hs'' with hl | hr
            · exact Or.inl hl
            · rcases (mem_keyedKeys _ _).mp hr with ⟨e, he, hek⟩
              exact Or.inr ((mem_keyedKeys _ _).mpr ⟨e, List.mem_cons_of_mem _ he, hek⟩)
        · intro ev' hev'
          rcases List.mem_cons.mp hev' with rfl | hev''
          · exact le_refl _
          · exact Nat.le_of_succ_le (hlo ev' hev'')
        · have hre : evs ++ ((⟨st.nextId, some s.key⟩ : CalEvent) :: new'') =
              (evs ++ [⟨st.nextId, some s.key⟩]) ++ new'' := by simp
          rw [hre]
          exact hnd'
        · have hre : evs ++ ((⟨st.nextId, some s.key⟩ : CalEvent) :: new'') =
              (evs ++ [⟨st.nextId, some s.key⟩]) ++ new'' := by simp
          rw [hre]
          exact hbd'
      · -- patch branch; it succeeds
        have hpair := dictGet?_some st.byKey s.key ev hg
        have hev := hbk (s.key, ev) hpair
        have hinj : ∀ x ∈ evs, ∀ y ∈ evs, x.id = y.id → x = y := by
          intro x hx y hy hxy
          exact List.inj_on_of_nodup_map hnodup hx hy hxy
        have hbk1 : ∀ p ∈ dictDel st.byKey s.key, p.2 ∈ evs ∧ p.2.key = some p.1 :=
          fun p hp' => hbk p (List.mem_of_mem_filter hp')
        obtain ⟨st', tr'', new'', hok, htr, hbk', happ, hkk, hcov, hlo, hnd', hbd'⟩ :=
          ih { st with updates := st.updates + 1, byKey := dictDel st.byKey s.key, trace := st.trace ++ [(.patch ev.id s.key, true)] }
            evs htail hbk1 hnodup hbound
        refine ⟨st', (.patch ev.id s.key, true) :: tr'', new'', ?_, ?_, ?_, ?_, ?_, ?_, ?_, ?_, ?_⟩
        · simp only [runUpserts, h1, hg, hpatch ev.id s.key, if_true, reduceIte]
          exact hok
        · rw [htr]; simp
        · rw [hbk', hkeys]
          exact dictDel_filter st.byKey s.key (keysOf rest)
        · have hid : applyOp evs (CalOp.patch ev.id s.key, true) = evs := by
            apply applyOp_patch_id
            intro e' he' hei
            have he2 : e' = ev := hinj e' he' ev hev.1 hei
            rw [he2]
            rcases hevs : ev with ⟨i0, k0⟩
            have : k0 = some s.key := by
              have := hev.2
              rw [hevs] at this
              exact this
            simp [this]
          have happ0 : applyOps evs ((CalOp.patch ev.id s.key, true) :: tr'') =
              applyOps (applyOp evs (CalOp.patch ev.id s.key, true)) tr'' := rfl
          rw [happ0, hid, happ]
        · intro x hx
          rw [hkeys]
          exact List.mem_cons_of_mem _ (hkk x hx)
        · intro s' hs'
          rcases List.mem_cons.mp hs' with rfl | hs''
          · exact Or.inl ((mem_dictKeys _ _).mpr ⟨(s'.key, ev), hpair, rfl⟩)
          · rcases hcov s' hs'' with hl | hr
            · exact Or.inl ((mem_dictKeys_dictDel st.byKey s.key s'.key).mp hl).1
            · exact Or.inr hr
        · exact hlo
        · exact hnd'
        · exact hbd'

/-- If every shift key is present in `by_key`, every shift patches: the run
performs no inserts, one update per shift, and leaves `by_key` without the
shift keys; the whole new trace is successful patches. -/
theorem runUpserts_all_hit (gw : Gateway) (hpatch : ∀ i k, gw.patchOk i k = true) :
    ∀ (shifts : List Shift) (st : SyncSt),
      (∀ s ∈ shifts, (syncInstants s).isSome) →
      (keysOf shifts).Nodup →
      (∀ s ∈ shifts, s.key ∈ dictKeys st.byKey) →
      ∃ st' tr', runUpserts gw shifts st = .ok st' ∧
        st'.inserts = st.inserts ∧
        st'.updates = st.updates + shifts.length ∧
        st'.deletes = st.deletes ∧
        st'.byKey = st.byKey.filter (fun p => decide (p.1 ∉ keysOf shifts)) ∧
        st'.trace = st.trace ++ tr' ∧
        (∀ ob ∈ tr', isPatchOp ob.1 = true ∧ ob.2 = true) := by
  intro shifts
  induction shifts with
  | nil =>
    intro st _ _ _
    exact ⟨st, [], rfl, rfl, rfl, rfl, by simp [keysOf], by simp, by simp⟩
  | cons s rest ih =>
    intro st hp hnd hhit
    have htail : ∀ x ∈ rest, (syncInstants x).isSome :=
      fun x hx => hp x (List.mem_cons_of_mem s hx)
    have hkeys : keysOf (s :: rest) = s.key :: keysOf rest := rfl
    rcases h1 : syncInstants s with _ | v
    · exact absurd (hp s (List.mem_cons_self s rest)) (by rw [h1]; simp)
    · obtain ⟨ev, hg⟩ := dictGet?_isSome_of_mem st.byKey s.key (hhit s (List.mem_cons_self s rest))
      have hheadnot : s.key ∉ keysOf rest := by
        have := hnd
        rw [hkeys] at this
        exact (List.nodup_cons.mp this).1
      have hhit1 : ∀ s' ∈ rest, s'.key ∈ dictKeys (dictDel st.byKey s.key) := by
        intro s' hs'
        apply (mem_dictKeys_dictDel st.byKey s.key s'.key).mpr
        refine ⟨hhit s' (List.mem_cons_of_mem s hs'), ?_⟩
        intro hc
        apply hheadnot
        rw [← hc]
        exact (mem_keysOf rest s'.key).mpr ⟨s', hs', rfl⟩
      obtain ⟨st', tr', hok, hi, hu, hd, hbk, htr, hops⟩ :=
        ih { st with updates := st.updates + 1, byKey := dictDel st.byKey s.key, trace := st.trace ++ [(.patch ev.id s.key, true)] }
          htail (by rw [hkeys] at hnd; exact hnd.of_cons) hhit1
      refine ⟨st', (.patch ev.id s.key, true) :: tr', ?_, ?_, ?_, ?_, ?_, ?_, ?_⟩
      · simp only [runUpserts, h1, hg, hpatch ev.id s.key, if_true, reduceIte]
        exact hok
      · exact hi
      · rw [hu]; simp [List.length_cons]; omega
      · exact hd
      · rw [hbk, hkeys]
        exact dictDel_filter st.byKey s.key (keysOf rest)
      · rw [htr]; simp
      · intro ob hob
        rcases List.mem_cons.mp hob with rfl | hob'
        · exact ⟨rfl, rfl⟩
        · exact hops ob hob'

/-- Claim C4: reconciliation is idempotent.  Starting from any calendar
state whose tagged keyed events have distinct keys and ids (and fresh
insert ids), running `sync` once and then running it again on the resulting
calendar with the same shift set (distinct keys, all parseable, all-success
gateway) yields on the second run the triple `(0, number of shifts, 0)`,
and every call the second run attempts is a successful patch — zero
inserts and zero deletes. -/
theorem C4_second_run_zero_inserts_deletes (shifts : List Shift)
    (fetched : List CalEvent) (nid1 nid2 : Nat)
    (hk : (keysOf shifts).Nodup)
    (hp : ∀ s ∈ shifts, (syncInstants s).isSome)
    (hfk : (keyedKeys fetched).Nodup)
    (hfid : (fetched.map (·.id)).Nodup)
    (hbound : ∀ e ∈ fetched, e.id < nid1) :
    (syncModel gwAllOk nid2 shifts
        (applyOps fetched (syncModel gwAllOk nid1 shifts fetched).2)).1 =
      (0, shifts.length, 0) ∧
    (∀ ob ∈ (syncModel gwAllOk nid2 shifts
        (applyOps fetched (syncModel gwAllOk nid1 shifts fetched).2)).2,
      isPatchOp ob.1 = true ∧ ob.2 = true) := by
  have hbk0 : (initSt fetched nid1).byKey = keyedPairs fetched := buildByKey_eq fetched hfk
  have hbkinv : ∀ p ∈ (initSt fetched nid1).byKey, p.2 ∈ fetched ∧ p.2.key = some p.1 := by
    rintro ⟨k0, e0⟩ hp0
    rw [hbk0] at hp0
    exact (mem_keyedPairs fetched k0 e0).mp hp0
  obtain ⟨st1, tr1, new1, hok1, htr1, hbk1, happ1, hkk1, hcov1, hlo1, hnd1, hbd1⟩ :=
    runUpserts_allOk gwAllOk (fun _ _ => rfl) (fun _ => rfl) shifts (initSt fetched nid1)
      fetched hp hbkinv hfid (fun e he => hbound e he)
  have htr1' : st1.trace = tr1 := by simpa [initSt] using htr1
  have hrun1 : (syncModel gwAllOk nid1 shifts fetched).2 =
      tr1 ++ (st1.byKey.map (·.2)).map (fun v => (CalOp.delete v.id, true)) := by
    rw [syncModel, if_pos (show gwAllOk.fetchOk = true from rfl)]
    simp only [hok1, runDeletes_spec]
    rw [htr1']
    rfl
  have hcal1 : applyOps fetched (syncModel gwAllOk nid1 shifts fetched).2 =
      (fetched ++ new1).filter
        (fun e => decide (e.id ∉ (st1.byKey.map (·.2)).map (·.id))) := by
    rw [hrun1, applyOps_append, happ1, applyOps_deletes]
  have hVmem : ∀ v ∈ st1.byKey.map (·.2),
      v ∈ fetched ∧ ∃ kv, v.key = some kv ∧ kv ∉ keysOf shifts := by
    intro v hv
    rcases List.mem_map.mp hv with ⟨p, hp1, rfl⟩
    rw [hbk1] at hp1
    have h1 := List.mem_of_mem_filter hp1
    have h2 := List.of_mem_filter hp1
    rw [hbk0] at h1
    rcases p with ⟨k0, e0⟩
    rcases (mem_keyedPairs fetched k0 e0).mp h1 with ⟨hm, hkk⟩
    exact ⟨hm, k0, hkk, by simpa using h2⟩
  have hinj : ∀ x ∈ fetched, ∀ y ∈ fetched, x.id = y.id → x = y :=
    fun x hx y hy hxy => List.inj_on_of_nodup_map hfid hx hy hxy
  have hVid : ∀ i ∈ (st1.byKey.map (·.2)).map (·.id), i < nid1 := by
    intro i hi
    rcases List.mem_map.mp hi with ⟨v, hv, rfl⟩
    exact hbound v (hVmem v hv).1
  have hset : ∀ x,
      x ∈ keyedKeys (applyOps fetched (syncModel gwAllOk nid1 shifts fetched).2) ↔
      x ∈ keysOf shifts := by
    intro x
    rw [hcal1]
    constructor
    · intro hx
      rcases (mem_keyedKeys _ _).mp hx with ⟨e, he, hek⟩
      have he1 := List.mem_of_mem_filter he
      have he2 := List.of_mem_filter he
      have hnotV : e.id ∉ (st1.byKey.map (·.2)).map (·.id) := by simpa using he2
      rcases List.mem_append.mp he1 with hef | hen
      · by_contra hxnot
        have hpair : (x, e) ∈ (initSt fetched nid1).byKey := by
          rw [hbk0]; exact (mem_keyedPairs fetched x e).mpr ⟨hef, hek⟩
        have hst1 : (x, e) ∈ st1.byKey := by
          rw [hbk1]
          exact List.mem_filter.mpr ⟨hpair, by simpa using hxnot⟩
        exact hnotV (List.mem_map.mpr ⟨e, List.mem_map.mpr ⟨(x, e), hst1, rfl⟩, rfl⟩)
      · exact hkk1 x ((mem_keyedKeys _ _).mpr ⟨e, hen, hek⟩)
    · intro hx
      rcases (mem_keysOf shifts x).mp hx with ⟨s, hs, rfl⟩
      have hxkeys : s.key ∈ keysOf shifts := (mem_keysOf shifts s.key).mpr ⟨s, hs, rfl⟩
      rcases hcov1 s hs with hl | hr
      · rcases (mem_dictKeys _ _).mp hl with ⟨p, hp1, hp2⟩
        have hp0 := hbkinv p hp1
        apply (mem_keyedKeys _ _).mpr
        refine ⟨p.2, List.mem_filter.mpr ⟨List.mem_append.mpr (Or.inl hp0.1), ?_⟩,
          by rw [hp0.2, hp2]⟩
        simp only [decide_eq_true_eq]
        intro hc
        rcases List.mem_map.mp hc with ⟨v, hv, hvid⟩
        rcases hVmem v hv with ⟨hqf, kv, hqk, hqnot⟩
        have hqe : v = p.2 := hinj v hqf p.2 hp0.1 hvid
        have hkv : kv = p.1 := by
          rw [hqe, hp0.2] at hqk
          exact (Option.some.inj hqk).symm
        apply hqnot
        rw [hkv, hp2]
        exact hxkeys
      · rcases (mem_keyedKeys _ _).mp hr with ⟨e, hen, hek⟩
        apply (mem_keyedKeys _ _).mpr
        refine ⟨e, List.mem_filter.mpr ⟨List.mem_append.mpr (Or.inr hen), ?_⟩, hek⟩
        simp only [decide_eq_true_eq]
        intro hc
        have h1 := hVid e.id hc
        have h2 := hlo1 e hen
        simp only [initSt] at h2
        omega
  have hhit2 : ∀ s ∈ shifts, s.key ∈ dictKeys
      (initSt (applyOps fetched (syncModel gwAllOk nid1 shifts fetched).2) nid2).byKey := by
    intro s hs
    have hgoal : s.key ∈ dictKeys
        (buildByKey (applyOps fetched (syncModel gwAllOk nid1 shifts fetched).2)) := by
      rw [mem_dictKeys_buildByKey]
      exact (hset s.key).mpr ((mem_keysOf shifts s.key).mpr ⟨s, hs, rfl⟩)
    exact hgoal
  obtain ⟨st2, tr2, hok2, hi2, hu2, hd2, hbk2, htr2, hops2⟩ :=
    runUpserts_all_hit gwAllOk (fun _ _ => rfl) shifts
      (initSt (applyOps fetched (syncModel gwAllOk nid1 shifts fetched).2) nid2) hp hk hhit2
  have hbknil : st2.byKey = [] := by
    rw [hbk2]
    apply dict_filter_nil_of_all_mem
    intro p hp2
    have hmem : p.1 ∈ dictKeys
        (initSt (applyOps fetched (syncModel gwAllOk nid1 shifts fetched).2) nid2).byKey :=
      (mem_dictKeys _ _).mpr ⟨p, hp2, rfl⟩
    rw [show (initSt (applyOps fetched (syncModel gwAllOk nid1 shifts fetched).2) nid2).byKey
        = buildByKey (applyOps fetched (syncModel gwAllOk nid1 shifts fetched).2) from rfl,
      mem_dictKeys_buildByKey] at hmem
    exact (hset p.1).mp hmem
  have htr2' : st2.trace = tr2 := by simpa [initSt] using htr2
  have hrun2 : syncModel gwAllOk nid2 shifts
      (applyOps fetched (syncModel gwAllOk nid1 shifts fetched).2) =
      ((st2.inserts, st2.updates, st2.deletes), st2.trace) := by
    rw [syncModel, if_pos (show gwAllOk.fetchOk = true from rfl)]
    simp only [hok2, runDeletes_spec, hbknil]
    simp
  constructor
  · rw [hrun2]
    simp [hi2, hu2, hd2, initSt]
  · intro ob hob
    rw [hrun2] at hob
    exact hops2 ob (htr2' ▸ hob)

/-- Witness for claim C4 at a concrete input: one shift, one stale tagged
event, one keyless event. -/
theorem C4_second_run_zero_inserts_deletes_witness :
    ((keysOf [demoShift1]).Nodup ∧ (∀ s ∈ [demoShift1], (syncInstants s).isSome) ∧
     (keyedKeys [⟨5, some "Z"⟩, ⟨7, none⟩]).Nodup ∧
     (([(⟨5, some "Z"⟩ : CalEvent), ⟨7, none⟩].map (·.id)).Nodup) ∧
     (∀ e ∈ [(⟨5, some "Z"⟩ : CalEvent), ⟨7, none⟩], e.id < 100)) ∧
    ((syncModel gwAllOk 200 [demoShift1]
        (applyOps [⟨5, some "Z"⟩, ⟨7, none⟩]
          (syncModel gwAllOk 100 [demoShift1] [⟨5, some "Z"⟩, ⟨7, none⟩]).2)).1 =
      (0, 1, 0) ∧
     (∀ ob ∈ (syncModel gwAllOk 200 [demoShift1]
        (applyOps [⟨5, some "Z"⟩, ⟨7, none⟩]
          (syncModel gwAllOk 100 [demoShift1] [⟨5, some "Z"⟩, ⟨7, none⟩]).2)).2,
      isPatchOp ob.1 = true ∧ ob.2 = true)) :=
  ⟨⟨by decide, by decide, by decide, by decide, by decide⟩,
   C4_second_run_zero_inserts_deletes [demoShift1] [⟨5, some "Z"⟩, ⟨7, none⟩] 100 200
     (by decide) (by decide) (by decide) (by decide) (by decide)⟩

end MakeCalendar
